import Mathlib

/-!
Verification development for the Teensy-Loader firmware library
(`Teensy-Loader.js`).  The JavaScript source is shallowly embedded:
strings become `List Char`, byte buffers become `List Nat`,
JavaScript numbers produced by `parseInt` become `Option Nat`
(`none` models `NaN`), and the asynchronous HID transfer protocol is
modelled as a pure state machine producing an event trace, with the
transport's per-call success encoded by an oracle `Nat → Bool`.
-/

set_option maxHeartbeats 1000000
set_option maxRecDepth 8000

namespace TeensyLoader

/-- Whitespace characters recognised by JavaScript `\s` and `trim()`
(ASCII whitespace plus the Unicode space characters). -/
def isJsWs (c : Char) : Bool :=
  c.toNat = 0x20 || c.toNat = 0x09 || c.toNat = 0x0A || c.toNat = 0x0D ||
  c.toNat = 0x0B || c.toNat = 0x0C || c.toNat = 0xA0 || c.toNat = 0x1680 ||
  (0x2000 ≤ c.toNat && c.toNat ≤ 0x200A) ||
  c.toNat = 0x2028 || c.toNat = 0x2029 || c.toNat = 0x202F ||
  c.toNat = 0x205F || c.toNat = 0x3000 || c.toNat = 0xFEFF

/-- Line terminators for the purposes of JavaScript multiline `^` and `$`
anchors: `\n`, `\r`, U+2028, U+2029. -/
def isTerm (c : Char) : Bool :=
  c.toNat = 0x0A || c.toNat = 0x0D || c.toNat = 0x2028 || c.toNat = 0x2029

/-- Model of JavaScript `String.prototype.trim`: strip leading and
trailing whitespace. -/
def jsTrim (cs : List Char) : List Char :=
  ((cs.dropWhile isJsWs).reverse.dropWhile isJsWs).reverse

/-- Model of `text.split(/\r?\n/)` (Teensy-Loader.js line 102): split at
every `\n`, additionally consuming a `\r` that immediately precedes it. -/
def splitLines : List Char → List (List Char)
  | [] => [[]]
  | '\r' :: '\n' :: rest => [] :: splitLines rest
  | '\n' :: rest => [] :: splitLines rest
  | c :: rest =>
    match splitLines rest with
    | [] => [[c]]
    | l :: ls => (c :: l) :: ls

/-- Join a list of lines with single `\n` separators (inverse of
splitting a newline-separated text). -/
def joinNl : List (List Char) → List Char
  | [] => []
  | [l] => l
  | l :: l' :: ls => l ++ '\n' :: joinNl (l' :: ls)

/-- Numeric value of one hexadecimal digit, if the character is one. -/
def hexVal (c : Char) : Option Nat :=
  if '0' ≤ c ∧ c ≤ '9' then some (c.toNat - '0'.toNat)
  else if 'a' ≤ c ∧ c ≤ 'f' then some (c.toNat - 'a'.toNat + 10)
  else if 'A' ≤ c ∧ c ≤ 'F' then some (c.toNat - 'A'.toNat + 10)
  else none

/-- Accumulate the value of a maximal hexadecimal-digit run. -/
def hexRunVal : List Char → Nat → Nat
  | [], acc => acc
  | c :: rest, acc =>
    match hexVal c with
    | some v => hexRunVal rest (acc * 16 + v)
    | none => acc

/-- Model of JavaScript `parseInt(s, 16)` as used on slices of trimmed
record lines: parse a maximal leading run of hexadecimal digits,
returning `none` (`NaN`) when the first character is not a hexadecimal
digit.  The leading-whitespace / sign / `0x`-prefix forms accepted by
`parseInt` do not arise from the slices the source takes out of a
trimmed record line and are not modelled. -/
def jsParseIntHex : List Char → Option Nat
  | [] => none
  | c :: rest =>
    match hexVal c with
    | some v => some (hexRunVal rest v)
    | none => none

/-- JavaScript addition where either operand may be `NaN`. -/
def jsAdd : Option Nat → Option Nat → Option Nat
  | some a, some b => some (a + b)
  | _, _ => none

/-- JavaScript coercion performed by bitwise operators: `NaN` becomes
`0`, a (small, nonnegative) number is passed through to `f`.  Models
expressions such as `(x >> 8) & 0xff` and `x << 4` whose operands here
are always either `NaN` or below `2^16`. -/
def jsBit (x : Option Nat) (f : Nat → Nat) : Nat :=
  match x with
  | none => 0
  | some n => f n

/-- Model of `s.slice(a, b)` on a `List Char` (all uses here have
`a ≤ b`; `slice` clamps to the string length, as `drop`/`take` do). -/
def jsSlice (cs : List Char) (a b : Nat) : List Char :=
  (cs.drop a).take (b - a)

/-- Errors thrown by the library, with the contextual payload each
`Error` message carries (line numbers for format errors, the product id
for the unsupported-format error, the block address for transfer
errors).  `checksumError` additionally records which of the four
distinct checksum messages was produced (0 = data record, 1 = EOF
record, 2 = extended-address record, 3 = other record type). -/
inductive JsError where
  | invalidHexLine (lineNum : Nat)
  | lineLengthMismatch (lineNum : Nat)
  | checksumError (kind : Nat) (lineNum : Nat)
  | ehexNotSupported (productId : Nat)
  | blockUploadFailed (address : Nat)
deriving DecidableEq, Repr

/-- Effect of one parsed record on the decode session. -/
inductive RecAction where
  | dataRec (bytes : List Nat)
  | eofRec
  | setBase (newBase : Nat)
  | otherRec
deriving DecidableEq, Repr

/-- One parsed Intel-HEX record: the raw parsed header fields (each
`none` when `parseInt` produced `NaN`) together with the session action
the record performs. -/
structure HexRecord where
  length : Option Nat
  address : Option Nat
  recordType : Option Nat
  action : RecAction
deriving DecidableEq, Repr

/-- Read `n` data bytes from `rest` starting at character index
`cursor`, as the data loops of Teensy-Loader.js lines 139-144 / 181-185
/ 225-229 do.  Returns the stored byte values (a `NaN` parse is stored
as `0` by the `Uint8Array` write) and the running checksum contribution
(`NaN`-propagating). -/
def readHexBytes (rest : List Char) : Nat → Nat → List Nat × Option Nat
  | 0, _ => ([], some 0)
  | n + 1, cursor =>
    let bv := jsParseIntHex (jsSlice rest cursor (cursor + 2))
    let r := readHexBytes rest n (cursor + 2)
    ((jsBit bv (· % 256)) :: r.1, jsAdd bv r.2)

/-- Format errors of one record line, before the line number is
attached. -/
inductive HexLineError where
  | invalidHexLine
  | lineLengthMismatch
  | checksumError (kind : Nat)
deriving DecidableEq, Repr

/-- Attach the (1-based in the source message, 0-based here) line
number to a record-format error. -/
def attachLine (n : Nat) : HexLineError → JsError
  | .invalidHexLine => .invalidHexLine n
  | .lineLengthMismatch => .lineLengthMismatch n
  | .checksumError k => .checksumError k n

/-- Per-line record parsing of `parseSingleHexSession`
(Teensy-Loader.js lines 119-237), extracted as a function on one
trimmed, nonblank line: marker check, header fields, line-length check,
and the per-record-type data read with checksum validation.  The
enclosing loop's line number only decorates error messages and is
attached by `parseHexLine`. -/
def parseHexLineCore (line : List Char) : Except HexLineError HexRecord :=
  if line.head? ≠ some ':' then .error .invalidHexLine
  else
    let rest := line.drop 1
    let len := jsParseIntHex (jsSlice rest 0 2)
    let addr := jsParseIntHex (jsSlice rest 2 6)
    let rtype := jsParseIntHex (jsSlice rest 6 8)
    let calcSum0 : Option Nat :=
      jsAdd (jsAdd (jsAdd len (some (jsBit addr (fun a => a / 256 % 256))))
        (some (jsBit addr (· % 256)))) rtype
    match len with
    | none => .error .lineLengthMismatch
    | some l =>
      if rest.length ≠ 10 + l * 2 then .error .lineLengthMismatch
      else
        match rtype with
        | some 0 =>
          let r := readHexBytes rest l 8
          let checkSum := jsParseIntHex (jsSlice rest (8 + 2 * l) (10 + 2 * l))
          let calcSum := jsBit (jsAdd calcSum0 r.2) (· % 256)
          if jsBit (jsAdd (some calcSum) checkSum) (· % 256) ≠ 0 then
            .error (.checksumError 0)
          else .ok ⟨len, addr, rtype, .dataRec r.1⟩
        | some 1 =>
          let r := readHexBytes rest l 8
          let checkSum := jsParseIntHex (jsSlice rest (8 + 2 * l) (10 + 2 * l))
          let calcSum := jsBit (jsAdd calcSum0 r.2) (· % 256)
          if jsBit (jsAdd (some calcSum) checkSum) (· % 256) ≠ 0 then
            .error (.checksumError 1)
          else .ok ⟨len, addr, rtype, .eofRec⟩
        | some 2 =>
          let highAddr := jsParseIntHex (jsSlice rest 8 12)
          let calcSum1 := jsAdd calcSum0
            (some (jsBit highAddr (fun a => a / 256 % 256) + jsBit highAddr (· % 256)))
          let checkSum := jsParseIntHex (jsSlice rest 12 14)
          let calcSum := jsBit calcSum1 (· % 256)
          if jsBit (jsAdd (some calcSum) checkSum) (· % 256) ≠ 0 then
            .error (.checksumError 2)
          else .ok ⟨len, addr, rtype, .setBase (jsBit highAddr (· * 16))⟩
        | some 4 =>
          let highAddr := jsParseIntHex (jsSlice rest 8 12)
          let calcSum1 := jsAdd calcSum0
            (some (jsBit highAddr (fun a => a / 256 % 256) + jsBit highAddr (· % 256)))
          let checkSum := jsParseIntHex (jsSlice rest 12 14)
          let calcSum := jsBit calcSum1 (· % 256)
          if jsBit (jsAdd (some calcSum) checkSum) (· % 256) ≠ 0 then
            .error (.checksumError 2)
          else .ok ⟨len, addr, rtype, .setBase (jsBit highAddr (· * 65536))⟩
        | _ =>
          let r := readHexBytes rest l 8
          let checkSum := jsParseIntHex (jsSlice rest (8 + 2 * l) (10 + 2 * l))
          let calcSum := jsBit (jsAdd calcSum0 r.2) (· % 256)
          if jsBit (jsAdd (some calcSum) checkSum) (· % 256) ≠ 0 then
            .error (.checksumError 3)
          else .ok ⟨len, addr, rtype, .otherRec⟩

/-- Record parsing of one line at line number `lineNum` (the errors the
source throws embed `lineNum + 1` in their message). -/
def parseHexLine (lineNum : Nat) (line : List Char) : Except JsError HexRecord :=
  (parseHexLineCore line).mapError (attachLine lineNum)

/-- The block map of one decode session: a `Map<blockNumber, Uint8Array>`
in insertion order.  A key is `none` when the computed block number was
`NaN`. -/
abbrev BlockMap := List (Option Nat × List Nat)

/-- Model of `ensureBlock` (Teensy-Loader.js lines 108-114): if the key
is absent, append a fresh block filled with `0xFF` (JavaScript `Map.set`
appends new keys in insertion order). -/
def ensureBlock (bm : BlockMap) (key : Option Nat) (blockSize : Nat) : BlockMap :=
  if (bm.lookup key).isSome then bm
  else bm ++ [(key, List.replicate blockSize 0xff)]

/-- Overwrite the value stored at `key` by applying `f` (the key is
present at every use site). -/
def mapSet (bm : BlockMap) (key : Option Nat) (f : List Nat → List Nat) : BlockMap :=
  bm.map (fun p => if p.1 = key then (p.1, f p.2) else p)

/-- Model of `block.set(bytes, pos)`: write `bytes` into the block
starting at index `pos`. -/
def writeBytes : List Nat → Nat → List Nat → List Nat
  | block, _, [] => block
  | block, pos, v :: vs => writeBytes (block.set pos v) (pos + 1) vs

/-- The while loop of Teensy-Loader.js lines 161-174: spread the data
bytes of one record across consecutive 1 KiB blocks, allocating each
referenced block lazily.  The fuel argument starts at `bytes.length`;
each iteration copies `toCopy ≥ 1` bytes when `blockSize > 0`, so this
fuel is sufficient. -/
def placeChunks (blockSize : Nat) : Nat → BlockMap → Nat → List Nat → BlockMap
  | 0, bm, _, _ => bm
  | fuel + 1, bm, addr, bytes =>
    if bytes.isEmpty then bm
    else
      let blockNum := addr / blockSize
      let inBlock := addr % blockSize
      let bm1 := ensureBlock bm (some blockNum) blockSize
      let toCopy := min (blockSize - inBlock) bytes.length
      let bm2 := mapSet bm1 (some blockNum) (fun b => writeBytes b inBlock (bytes.take toCopy))
      placeChunks blockSize fuel bm2 (addr + toCopy) (bytes.drop toCopy)

/-- One finalized firmware block as produced by `finalizeBlocks`:
`address` is `none` when the block number was `NaN`. -/
structure PBlock where
  address : Option Nat
  data : List Nat
deriving DecidableEq, Repr

/-- Ascending-by-address comparison used to model
`result.sort((a, b) => a.address - b.address)`.  A `NaN` address makes
the comparator inconsistent, for which JavaScript leaves the order
unspecified; the model leaves such blocks in place, matching the
comparator returning a non-positive value. -/
def leAddr (a b : PBlock) : Bool :=
  match a.address, b.address with
  | some x, some y => x ≤ y
  | _, _ => true

/-- Stable insertion of one block into an address-sorted list. -/
def insertBlock (x : PBlock) : List PBlock → List PBlock
  | [] => [x]
  | y :: ys => if leAddr y x then y :: insertBlock x ys else x :: y :: ys

/-- Stable ascending sort by address. -/
def sortBlocks : List PBlock → List PBlock
  | [] => []
  | x :: xs => insertBlock x (sortBlocks xs)

/-- Model of `finalizeBlocks` (Teensy-Loader.js lines 256-270): the
block map becomes a list of `{ address, data }` entries with
`address = offset + blockNum * blockSize`, sorted ascending by
address. -/
def finalizeBlocks (bm : BlockMap) (blockSize offset : Nat) : List PBlock :=
  sortBlocks (bm.map (fun p => ⟨p.1.map (fun k => offset + k * blockSize), p.2⟩))

/-- Outcome of scanning the lines of one session: an error, an early
return at an EOF record (`done`), or running off the end of the input
(`ran`, with the rolling base for continuation). -/
inductive SessionOut where
  | err (e : JsError)
  | done (bm : BlockMap)
  | ran (bm : BlockMap) (base : Nat)
deriving DecidableEq, Repr

/-- Result of processing one line of the session loop. -/
inductive StepOut where
  | errS (e : JsError)
  | eofS (bm : BlockMap)
  | contS (bm : BlockMap) (base : Nat)
deriving DecidableEq, Repr

/-- One iteration of the line loop of `parseSingleHexSession`
(Teensy-Loader.js lines 116-238): trim the line, skip it when blank,
parse the record, and fold its action into the session state.  A data
record whose absolute address is below the offset is silently dropped;
a data record whose parsed address was `NaN` performs the single
no-effect loop iteration the source performs (allocating a `NaN`-keyed
block when the record has data bytes, copying nothing). -/
def stepLine (blockSize offset n : Nat) (bm : BlockMap) (base : Nat)
    (l : List Char) : StepOut :=
  let t := jsTrim l
  if t.isEmpty then .contS bm base
  else
    match parseHexLineCore t with
    | .error e => .errS (attachLine n e)
    | .ok rec =>
      match rec.action with
      | .eofRec => .eofS bm
      | .setBase b => .contS bm b
      | .otherRec => .contS bm base
      | .dataRec bytes =>
        match rec.address with
        | none => .contS (if bytes.isEmpty then bm else ensureBlock bm none blockSize) base
        | some a =>
          let addr32 : Int := (base : Int) + a - offset
          if addr32 < 0 then .contS bm base
          else .contS (placeChunks blockSize bytes.length bm addr32.toNat bytes) base

/-- The line loop of `parseSingleHexSession`: fold `stepLine` over the
lines, stopping at the first EOF record or error. -/
def runLines (blockSize offset : Nat) :
    List (List Char) → Nat → BlockMap → Nat → SessionOut
  | [], _, bm, base => .ran bm base
  | l :: rest, n, bm, base =>
    match stepLine blockSize offset n bm base l with
    | .errS e => .err e
    | .eofS bm' => .done bm'
    | .contS bm' base' => runLines blockSize offset rest (n + 1) bm' base'

/-- Model of `parseSingleHexSession` (Teensy-Loader.js lines 101-242):
split the text into lines, scan them, and finalize the block map at the
first EOF record or at end of input. -/
def parseSingleHexSession (hexText : List Char) (blockSize offset : Nat) :
    Except JsError (List PBlock) :=
  match runLines blockSize offset (splitLines hexText) 0 [] 0 with
  | .err e => .error e
  | .done bm => .ok (finalizeBlocks bm blockSize offset)
  | .ran bm _ => .ok (finalizeBlocks bm blockSize offset)

/-- The canonical end-of-file record text. -/
def eofMarker : List Char := ":00000001FF".toList

/-- Scan of the whitespace run after the literal `:00000001FF` in the
regular expression `/^:00000001FF\s*$/m`: starting at relative offset
`pos`, walk the maximal `\s` run, remembering the last position whose
character is a line terminator (where the multiline `$` can match);
reaching the end of the text also satisfies `$`.  Returns the relative
end offset of the (greedy, backtracking) match, if any. -/
def wsScan : List Char → Nat → Option Nat → Option Nat
  | [], pos, _ => some pos
  | c :: rest, pos, best =>
    if isJsWs c then wsScan rest (pos + 1) (if isTerm c then some pos else best)
    else best

/-- Attempt to match `:00000001FF\s*$` at the start of `suffix`,
returning the relative end offset of the match. -/
def matchCanonEnd (suffix : List Char) : Option Nat :=
  if eofMarker.isPrefixOf suffix then wsScan (suffix.drop 11) 11 none
  else none

/-- Leftmost-match search of `/^:00000001FF\s*$/m` over the text
(Teensy-Loader.js lines 292-293): try each position in order, a match
being allowed only at the start of a line (`atStart`). -/
def findMarkerGo : Bool → List Char → Nat → Option Nat
  | _, [], _ => none
  | atStart, c :: rest, pos =>
    if atStart then
      match matchCanonEnd (c :: rest) with
      | some r => some (pos + r)
      | none => findMarkerGo (isTerm c) rest (pos + 1)
    else findMarkerGo (isTerm c) rest (pos + 1)

/-- Index just past the first match of `/^:00000001FF\s*$/m`
(`match.index + match[0].length` in the source), if the marker
occurs. -/
def findMarker (cs : List Char) : Option Nat :=
  findMarkerGo true cs 0

/-- Model of `parseEhexFull` (Teensy-Loader.js lines 287-317) on the
decoded text: split at the first canonical end-of-file marker line; the
prefix (marker included) is decoded with offset `0x60000000`, the
remainder with offset `0`, or as an empty loader set when the remainder
is blank; with no marker the entire text is one session with offset
`0x60000000`. -/
def parseEhexFull (text : List Char) (blockSize : Nat) :
    Except JsError (List PBlock × List PBlock) :=
  match findMarker text with
  | none =>
    (parseSingleHexSession text blockSize 0x60000000).map (fun mb => (mb, []))
  | some e =>
    let mainText := text.take e
    let afterText := text.drop e
    match parseSingleHexSession mainText blockSize 0x60000000 with
    | .error err => .error err
    | .ok mainBlocks =>
      if (jsTrim afterText).isEmpty then .ok (mainBlocks, [])
      else (parseSingleHexSession afterText blockSize 0).map
        (fun lb => (mainBlocks, lb))

/-- Model of `getAddressOffset` (Teensy-Loader.js lines 59-67). -/
def getAddressOffset (productId : Nat) : Nat :=
  if productId = 0x0478 ∨ productId = 0x0479 then 0x60000000 else 0x00000000

/-- Model of `isTeensy3x` (Teensy-Loader.js lines 73-81). -/
def isTeensy3x (productId : Nat) : Bool :=
  productId ∈ [0x0483, 0x0484, 0x0474, 0x0477]

/-- Model of `new TextDecoder().decode` restricted to the ASCII inputs
that occur here: each byte becomes the character with that code point
(exact for ASCII byte streams; multi-byte UTF-8 sequences do not occur
in the inputs considered). -/
def asciiDecode (bytes : List Nat) : List Char :=
  bytes.map Char.ofNat

/-- Model of `String.prototype.toLowerCase` on ASCII filenames. -/
def jsToLower (cs : List Char) : List Char :=
  cs.map (fun c => if 'A' ≤ c ∧ c ≤ 'Z' then Char.ofNat (c.toNat + 32) else c)

/-- Pad one short final chunk with `0xFF` (Teensy-Loader.js lines
374-378). -/
def padPage (chunk : List Nat) : List Nat :=
  chunk ++ List.replicate (1024 - chunk.length) 0xff

/-- The `.bin` slicing loop of `buildBlocks` (Teensy-Loader.js lines
371-382), with fuel bounded by the byte count. -/
def binPagesGo : Nat → List Nat → List (List Nat)
  | 0, _ => []
  | fuel + 1, bytes =>
    if bytes.isEmpty then []
    else
      let chunk := bytes.take 1024
      if chunk.length < 1024 then [padPage chunk]
      else chunk :: binPagesGo fuel (bytes.drop 1024)

/-- Raw binary input split into 1024-byte `0xFF`-padded pages. -/
def binPages (bytes : List Nat) : List (List Nat) :=
  binPagesGo bytes.length bytes

/-- Result of `FirmwareFile.buildBlocks`: the hex paths produce
addressed block lists, while the `.bin` path of the source produces
bare 1024-byte pages with no address field. -/
inductive BuildBlocksResult where
  | hexBlocks (mainBlocks loaderBlocks : List PBlock)
  | rawPages (mainBlocks : List (List Nat))
deriving DecidableEq, Repr

/-- Model of `FirmwareFile.buildBlocks` (Teensy-Loader.js lines
345-384), with the constructor's `filename.toLowerCase()` applied
first: `.ehex` on a known Teensy 3.x id fails; `.hex` decodes a single
session at the device offset; `.ehex` on any other id decodes as dual
segments; anything else is split as raw binary. -/
def buildBlocks (fileData : List Nat) (filename : List Char) (productId : Nat) :
    Except JsError BuildBlocksResult :=
  let fn := jsToLower filename
  let is3x := isTeensy3x productId
  if is3x ∧ (".ehex".toList).isSuffixOf fn then
    .error (.ehexNotSupported productId)
  else if (".hex".toList).isSuffixOf fn then
    (parseSingleHexSession (asciiDecode fileData) 1024 (getAddressOffset productId)).map
      (fun mb => .hexBlocks mb [])
  else if (".ehex".toList).isSuffixOf fn ∧ ¬ is3x then
    (parseEhexFull (asciiDecode fileData) 1024).map
      (fun p => .hexBlocks p.1 p.2)
  else .ok (.rawPages (binPages fileData))

/-- One observable event of a flash operation: opening or closing the
transport, one `sendReport` call with its data and success/failure, one
`sleep(ms)` pause, or one progress-callback invocation carrying the
exact pair `(doneCount, totalNeeded)` whose quotient the source passes
to the callback. -/
inductive Ev where
  | openDev
  | send (data : List Nat) (ok : Bool)
  | sleep (ms : Nat)
  | progress (done total : Nat)
  | closeDev
deriving DecidableEq, Repr

/-- A block as consumed by `TeensyFlasher`: a numeric address and a
data buffer. -/
structure Block where
  address : Nat
  data : List Nat
deriving DecidableEq, Repr

/-- Whether a buffer is entirely `0xFF` (`b.data.every(x => x === 0xff)`). -/
def allFF (data : List Nat) : Bool :=
  data.all (· == 0xff)

/-- The eligibility filter of `sendBlocks` and `countNeeded`
(Teensy-Loader.js lines 462-465 and 505-508): the block at position 0
is always kept; every other block is kept only when its data is not
entirely `0xFF`. -/
def neededFilter : List Block → List Block
  | [] => []
  | b :: rest => b :: rest.filter (fun x => !(allFF x.data))

/-- Model of `TeensyFlasher.countNeeded` (Teensy-Loader.js lines
504-509). -/
def countNeeded (blocks : List Block) : Nat :=
  (neededFilter blocks).length

/-- The 1088-byte report framing one block (Teensy-Loader.js lines
469-480): the report is zero-filled, bytes 0-2 receive the little-endian
24-bit address, and the block data is copied in at offset 64. -/
def buildReport (b : Block) : List Nat :=
  [b.address % 256, b.address / 256 % 256, b.address / 65536 % 256] ++
    List.replicate 61 0 ++ b.data ++ List.replicate (1024 - b.data.length) 0

/-- The final "commit/reboot" sentinel report (Teensy-Loader.js lines
430-435): 1088 zero bytes with the first three set to `0xFF`. -/
def sentinelReport : List Nat :=
  [0xff, 0xff, 0xff] ++ List.replicate 1085 0

/-- Model of `sendReportWithRetries` (Teensy-Loader.js lines 39-50):
up to `maxRetries` attempts, consuming one oracle index per
`sendReport` call, sleeping 100 ms after each failed attempt.  Returns
(success, next oracle index, events). -/
def sendReportWithRetries (oracle : Nat → Bool) (data : List Nat) :
    Nat → Nat → Bool × Nat × List Ev
  | 0, calls => (false, calls, [])
  | n + 1, calls =>
    if oracle calls then (true, calls + 1, [.send data true])
    else
      let r := sendReportWithRetries oracle data n (calls + 1)
      (r.1, r.2.1, .send data false :: .sleep 100 :: r.2.2)

/-- The transmission loop of `TeensyFlasher.sendBlocks`
(Teensy-Loader.js lines 467-493) on the already-filtered block list:
each block is framed and sent with up to 5 attempts; on success the
progress callback fires with `(done0 + sent, total)` and the loop
sleeps 1500 ms after this call's first block, 5 ms after every other;
on failure the loop aborts with the block's address.  Returns the trace
and either the error or (sentCount, next oracle index). -/
def sendBlocksGo (oracle : Nat → Bool) (total done0 : Nat) :
    List Block → Nat → Nat → List Ev × Except JsError (Nat × Nat)
  | [], sent, calls => ([], .ok (sent, calls))
  | b :: rest, sent, calls =>
    let r := sendReportWithRetries oracle (buildReport b) 5 calls
    if r.1 then
      let sent' := sent + 1
      let hd := r.2.2 ++
        [.progress (done0 + sent') total, .sleep (if sent' = 1 then 1500 else 5)]
      let t := sendBlocksGo oracle total done0 rest sent' r.2.1
      (hd ++ t.1, t.2)
    else (r.2.2, .error (.blockUploadFailed b.address))

/-- Model of `TeensyFlasher.flashFirmware` (Teensy-Loader.js lines
403-443): open the device, send the needed main blocks then (when the
loader list is nonempty) the needed loader blocks — the progress
callback closing over `doneCount / totalNeeded` across both sets — then
the sentinel report (whose failure is ignored) and a 100 ms settle
pause; the transport is closed on every exit path. -/
def flashFirmware (mainBlocks loaderBlocks : List Block) (oracle : Nat → Bool) :
    List Ev × Option JsError :=
  let total := countNeeded mainBlocks + countNeeded loaderBlocks
  let r1 := sendBlocksGo oracle total 0 (neededFilter mainBlocks) 0 0
  match r1.2 with
  | .error e => (.openDev :: r1.1 ++ [.closeDev], some e)
  | .ok (sent1, calls1) =>
    let r2 :=
      if loaderBlocks.length > 0 then
        sendBlocksGo oracle total sent1 (neededFilter loaderBlocks) 0 calls1
      else ([], .ok (0, calls1))
    match r2.2 with
    | .error e => (.openDev :: r1.1 ++ r2.1 ++ [.closeDev], some e)
    | .ok (_, calls2) =>
      let fr := sendReportWithRetries oracle sentinelReport 5 calls2
      (.openDev :: r1.1 ++ r2.1 ++ fr.2.2 ++ [.sleep 100, .closeDev], none)

/-- The report payloads of the `sendReport` calls in a trace, in
order. -/
def sends (evs : List Ev) : List (List Nat) :=
  evs.filterMap (fun e => match e with | .send d _ => some d | _ => none)

/-- The `(doneCount, totalNeeded)` pairs passed to the progress
callback, in order. -/
def progresses (evs : List Ev) : List (Nat × Nat) :=
  evs.filterMap (fun e => match e with | .progress a b => some (a, b) | _ => none)

/-- Number of long (1500 ms) pauses in a trace. -/
def count1500 (evs : List Ev) : Nat :=
  evs.countP (fun e => match e with | .sleep 1500 => true | _ => false)

/-- Model of `text.split('\n')` factored for the serial framer: the
complete (newline-terminated) segments and the trailing partial
segment. -/
def splitNlParts : List Char → List (List Char) × List Char
  | [] => ([], [])
  | c :: rest =>
    let p := splitNlParts rest
    if c = '\n' then ([] :: p.1, p.2)
    else
      match p with
      | (l :: ls, tl) => ((c :: l) :: ls, tl)
      | ([], tl) => ([], c :: tl)

/-- Model of `SerialPortManager.processSerialData` (Teensy-Loader.js
lines 549-560): append the chunk to the retained buffer, emit every
complete line trimmed, and retain the final segment.  Returns (emitted
lines, new buffer). -/
def processSerialData (buf chunk : List Char) : List (List Char) × List Char :=
  let p := splitNlParts (buf ++ chunk)
  (p.1.map jsTrim, p.2)

/-- Feed a sequence of chunks through `processSerialData`, collecting
all emitted lines in order together with the final retained buffer. -/
def feedAll : List Char → List (List Char) → List (List Char) × List Char
  | buf, [] => ([], buf)
  | buf, c :: cs =>
    let r := processSerialData buf c
    let t := feedAll r.2 cs
    (r.1 ++ t.1, t.2)

/-- The events produced by transmitting a list of (already filtered)
blocks with an always-succeeding transport, starting from progress
baseline `done0` and per-call sent counter `sent0`: each block yields
its successful send, one progress invocation, and the paced sleep. -/
def blockEvs : List Block → Nat → Nat → Nat → List Ev
  | [], _, _, _ => []
  | b :: rest, done0, sent0, total =>
    .send (buildReport b) true ::
    .progress (done0 + sent0 + 1) total ::
    .sleep (if sent0 + 1 = 1 then 1500 else 5) ::
    blockEvs rest done0 (sent0 + 1) total

theorem sendReportWithRetries_ok (data : List Nat) (n calls : Nat) :
    sendReportWithRetries (fun _ => true) data (n + 1) calls =
      (true, calls + 1, [.send data true]) := rfl

theorem sendBlocksGo_ok (total done0 : Nat) :
    ∀ (bs : List Block) (sent calls : Nat),
      sendBlocksGo (fun _ => true) total done0 bs sent calls =
        (blockEvs bs done0 sent total, .ok (sent + bs.length, calls + bs.length)) := by
  intro bs
  induction bs with
  | nil => intro sent calls; simp [sendBlocksGo, blockEvs]
  | cons b rest ih =>
    intro sent calls
    simp only [sendBlocksGo, sendReportWithRetries_ok, ih, List.length_cons, blockEvs]
    rw [if_pos trivial]
    simp only [Prod.mk.injEq, Except.ok.injEq]
    refine ⟨by simp [List.cons.injEq]; omega, by omega⟩

/-- Full trace of `flashFirmware` with an always-succeeding transport:
open, the needed main blocks, the needed loader blocks (progress
continuing from the main count, the per-call sent counter reset), the
sentinel, the settle pause, close; no error. -/
theorem flashFirmware_ok_trace (main loader : List Block) :
    flashFirmware main loader (fun _ => true) =
      (.openDev ::
        blockEvs (neededFilter main) 0 0 (countNeeded main + countNeeded loader) ++
        blockEvs (neededFilter loader) (neededFilter main).length 0
          (countNeeded main + countNeeded loader) ++
        [.send sentinelReport true, .sleep 100, .closeDev], none) := by
  unfold flashFirmware
  simp only [sendBlocksGo_ok, Nat.zero_add]
  by_cases h : loader.length > 0
  · simp only [if_pos h, sendBlocksGo_ok, sendReportWithRetries_ok]
    simp [countNeeded]
  · simp only [if_neg h]
    have hl : loader = [] := List.length_eq_zero.mp (by omega)
    subst hl
    simp [neededFilter, blockEvs, sendReportWithRetries_ok, countNeeded]

theorem sends_append (a b : List Ev) : sends (a ++ b) = sends a ++ sends b :=
  List.filterMap_append a b _

theorem progresses_append (a b : List Ev) :
    progresses (a ++ b) = progresses a ++ progresses b :=
  List.filterMap_append a b _

theorem sends_blockEvs (bs : List Block) (d s t : Nat) :
    sends (blockEvs bs d s t) = bs.map buildReport := by
  induction bs generalizing s with
  | nil => rfl
  | cons b rest ih =>
    simp only [blockEvs, sends, List.filterMap_cons, List.map_cons, List.cons.injEq]
    exact ⟨trivial, ih (s + 1)⟩

theorem progresses_blockEvs (bs : List Block) (d s t : Nat) :
    progresses (blockEvs bs d s t) =
      (List.range bs.length).map (fun i => (d + s + i + 1, t)) := by
  induction bs generalizing s with
  | nil => rfl
  | cons b rest ih =>
    simp only [blockEvs, progresses, List.filterMap_cons, List.length_cons,
      List.range_succ_eq_map, List.map_cons, List.map_map, List.cons.injEq]
    refine ⟨trivial, ?_⟩
    have := ih (s + 1)
    simp only [progresses] at this
    rw [this]
    congr 1
    funext i
    simp only [Function.comp_apply]
    congr 2
    omega

/-! ## Claim C1: extended linear address handling -/

/-- C1, counterexample.  Decoding the session
`:020000040001F9 / :02002000AABB79 / :00000001FF` — an
ExtendedLinearAddress record setting the rolling base to `0x00010000`
followed by a Data record at 16-bit address `0x0020` — with decode
offset `0x60000000` produces NO blocks at all: the computed relative
address `0x00010020 - 0x60000000` is negative, so the source silently
drops the bytes.  The claim asserts the bytes are placed at absolute
address `0x60010020`, which is false. -/
theorem ela_base10000_offset_drops_bytes :
    parseSingleHexSession
      (":020000040001F9\n:02002000AABB79\n:00000001FF".toList) 1024 0x60000000 =
      .ok [] := by
  rfl

/-- C1, amended claim.  With the rolling base set to `0x60010000` (an
ExtendedLinearAddress record carrying `0x6001`), the Data record at
16-bit address `0x0020` decoded with offset `0x60000000` yields exactly
one block at block-aligned address `0x60010000` whose bytes `0xAA 0xBB`
sit at in-block offsets 32 and 33 — that is, at absolute addresses
`0x60010020` and `0x60010021` — with every other byte `0xFF`. -/
theorem ela_base60010000_places_bytes_at_60010020 :
    parseSingleHexSession
      (":02000004600199\n:02002000AABB79\n:00000001FF".toList) 1024 0x60000000 =
      .ok [⟨some 0x60010000, ((List.replicate 1024 0xff).set 32 0xaa).set 33 0xbb⟩] := by
  rfl

/-! ## Claim C2: `.ehex` dispatch by device family -/

/-- C2, counterexample.  Product id `0x1234` is absent from the static
identification table (so the spec classifies it small-address, and
`getAddressOffset` indeed gives it offset 0), yet `buildBlocks` on an
`.ehex` filename succeeds for it instead of failing with the
unsupported-format error: the source treats every id that is not a
known Teensy 3.x id as Teensy 4.x in the `.ehex` dispatch. -/
theorem buildBlocks_ehex_unknown_id_succeeds :
    getAddressOffset 0x1234 = 0 ∧
    buildBlocks (":00000001FF".toList.map Char.toNat) ("a.ehex".toList) 0x1234 =
      .ok (.hexBlocks [] []) := by
  exact ⟨rfl, rfl⟩

/-- C2, amended claim.  `buildBlocks` on a filename ending in `.ehex`
fails with the unsupported-format error exactly for the four known
Teensy 3.x product ids (`0x0483`, `0x0484`, `0x0474`, `0x0477`); a
product id absent from the identification table is treated as the
large-address family by the `.ehex` dispatch and proceeds (for example
id `0x1234` succeeds despite receiving the small-address offset 0
elsewhere). -/
theorem buildBlocks_ehex_rejects_exactly_known_3x
    (pid : Nat) (fileData : List Nat) (filename : List Char)
    (hpid : pid ∈ [0x0483, 0x0484, 0x0474, 0x0477])
    (hext : (".ehex".toList).isSuffixOf (jsToLower filename)) :
    buildBlocks fileData filename pid = .error (.ehexNotSupported pid) := by
  have h3x : isTeensy3x pid = true := by
    simp only [isTeensy3x, decide_eq_true_eq]
    exact hpid
  simp only [buildBlocks]
  rw [if_pos ⟨h3x, hext⟩]

/-- C2, witness for the amended claim at product id `0x0483`
(Teensy 3.0) with filename `blink.ehex`. -/
theorem buildBlocks_ehex_rejects_exactly_known_3x_witness :
    buildBlocks [] ("blink.ehex".toList) 0x0483 =
      .error (.ehexNotSupported 0x0483) :=
  buildBlocks_ehex_rejects_exactly_known_3x 0x0483 [] ("blink.ehex".toList)
    (by decide) (by decide)

/-! ## Claim C3: single-record validation and corruption detection -/

/-- C3: the code accepts a one-byte corruption of a valid record line.
The line `:01000000FF00` is a valid Data record (checksum
`1 + 0 + 0 + 0 + 0xFF + 0x00 = 0x100 ≡ 0 (mod 256)`) and parses
successfully; corrupting exactly one character (`F` at index 9 becomes
`G`) must per the claim produce a format error, but the parser accepts
the corrupted line as well — `parseInt('GF', 16)` is `NaN`, `NaN` is
coerced to `0` by `& 0xff` so the checksum test passes, and the stored
data byte silently becomes `0` instead of `0xFF`. -/
theorem parseHexLine_accepts_one_byte_corruption :
    parseHexLine 0 (":01000000FF00".toList) =
      .ok ⟨some 1, some 0, some 0, .dataRec [0xff]⟩
    ∧ (":01000000GF00".toList.length = ":01000000FF00".toList.length
       ∧ ((":01000000GF00".toList.zip ":01000000FF00".toList).countP
            (fun p => p.1 ≠ p.2)) = 1)
    ∧ parseHexLine 0 (":01000000GF00".toList) =
      .ok ⟨some 1, some 0, some 0, .dataRec [0]⟩ := by
  refine ⟨rfl, ⟨rfl, ?_⟩, rfl⟩
  decide

/-! ## Claim C10: flashing two empty block lists -/

/-- C10: with both block lists empty, `flashFirmware` opens the
transport, transmits only the sentinel report, sleeps the settle pause,
closes the transport, completes without error, and never invokes the
progress callback. -/
theorem flashFirmware_empty_lists_sentinel_only :
    flashFirmware [] [] (fun _ => true) =
      ([.openDev, .send sentinelReport true, .sleep 100, .closeDev], none)
    ∧ progresses (flashFirmware [] [] (fun _ => true)).1 = [] := by
  exact ⟨rfl, rfl⟩

theorem sends_openDev_cons (l : List Ev) : sends (.openDev :: l) = sends l := rfl

theorem sends_final :
    sends [.send sentinelReport true, .sleep 100, .closeDev] = [sentinelReport] := rfl

theorem progresses_openDev_cons (l : List Ev) :
    progresses (.openDev :: l) = progresses l := rfl

theorem progresses_final :
    progresses [.send sentinelReport true, .sleep 100, .closeDev] = [] := rfl

theorem countNeeded_def (bs : List Block) :
    countNeeded bs = (neededFilter bs).length := rfl

/-! ## Claim C4: blank-block skipping and progress reporting -/

/-- C4.  With an always-succeeding transport: `flashFirmware` completes
without error; the reports sent are exactly the framed reports of the
needed blocks of both sets — the positionally first block of each list
always included, every other entirely-`0xFF` block skipped — followed
by the sentinel; the progress callback fires exactly once per
transmitted block with the pair `(k, total)` for `k = 1, …, total`.  In
particular, on a main list of four blocks whose blocks at positions 1
and 3 are entirely `0xFF` (and position 2 is not), only blocks 0 and 2
are transmitted before the sentinel, and progress is invoked with
exactly the two strictly increasing values `1/2 < 2/2`. -/
theorem flashFirmware_needed_blocks_and_progress :
    (∀ main loader : List Block,
      (flashFirmware main loader (fun _ => true)).2 = none
      ∧ sends (flashFirmware main loader (fun _ => true)).1 =
          (neededFilter main ++ neededFilter loader).map buildReport ++ [sentinelReport]
      ∧ progresses (flashFirmware main loader (fun _ => true)).1 =
          (List.range (countNeeded main + countNeeded loader)).map
            (fun i => (i + 1, countNeeded main + countNeeded loader)))
    ∧ (∀ b0 b1 b2 b3 : Block,
        allFF b1.data → allFF b3.data → allFF b2.data = false →
        flashFirmware [b0, b1, b2, b3] [] (fun _ => true) =
          ([.openDev, .send (buildReport b0) true, .progress 1 2, .sleep 1500,
            .send (buildReport b2) true, .progress 2 2, .sleep 5,
            .send sentinelReport true, .sleep 100, .closeDev], none)
        ∧ progresses (flashFirmware [b0, b1, b2, b3] [] (fun _ => true)).1 =
            [(1, 2), (2, 2)]
        ∧ ((1 : ℚ) / 2 < 2 / 2)) := by
  constructor
  · intro main loader
    refine ⟨?_, ?_, ?_⟩
    · rw [flashFirmware_ok_trace]
    · rw [flashFirmware_ok_trace]
      dsimp only
      simp only [List.cons_append, List.append_assoc]
      rw [sends_openDev_cons, sends_append, sends_append, sends_final,
        sends_blockEvs, sends_blockEvs]
      simp [List.map_append, List.append_assoc]
    · rw [flashFirmware_ok_trace]
      dsimp only
      simp only [List.cons_append, List.append_assoc]
      rw [progresses_openDev_cons, progresses_append, progresses_append,
        progresses_final, progresses_blockEvs, progresses_blockEvs,
        countNeeded_def, countNeeded_def, List.range_add]
      simp [List.map_append, List.append_nil, List.map_map, Function.comp]
  · intro b0 b1 b2 b3 h1 h3 h2
    have htrace := flashFirmware_ok_trace [b0, b1, b2, b3] []
    have hfil : neededFilter [b0, b1, b2, b3] = [b0, b2] := by
      simp [neededFilter, List.filter, h1, h2, h3]
    rw [hfil] at htrace
    have hcount : countNeeded [b0, b1, b2, b3] = 2 := by
      rw [countNeeded_def, hfil]; rfl
    rw [hcount] at htrace
    refine ⟨?_, ?_, by norm_num⟩
    · rw [htrace]; rfl
    · rw [htrace]; rfl

/-! ## Claim C5: retry ceiling and transfer failure -/

/-- C5.  Retry behaviour of one block transmission inside
`flashFirmware` for an arbitrary block `b`.  With a transport whose
first four sends fail and whose fifth succeeds, the operation completes
without `TransferError` (the four failed attempts each followed by the
100 ms backoff pause, the fifth succeeding); with a transport that
always fails, all five attempts are made with backoff pauses, the
operation fails with the transfer error identifying the block's
address, and the transport close event still precedes the surfaced
error in both scenarios. -/
theorem flashFirmware_retry_ceiling (b : Block) :
    flashFirmware [b] [] (fun n => 4 ≤ n) =
      ([.openDev,
        .send (buildReport b) false, .sleep 100,
        .send (buildReport b) false, .sleep 100,
        .send (buildReport b) false, .sleep 100,
        .send (buildReport b) false, .sleep 100,
        .send (buildReport b) true, .progress 1 1, .sleep 1500,
        .send sentinelReport true, .sleep 100, .closeDev], none)
    ∧ flashFirmware [b] [] (fun _ => false) =
      ([.openDev,
        .send (buildReport b) false, .sleep 100,
        .send (buildReport b) false, .sleep 100,
        .send (buildReport b) false, .sleep 100,
        .send (buildReport b) false, .sleep 100,
        .send (buildReport b) false, .sleep 100,
        .closeDev], some (.blockUploadFailed b.address)) := by
  exact ⟨rfl, rfl⟩

/-! ## Claim C7: pacing of the long erase pause -/

/-- C7, counterexample.  With one main block and one loader block (both
transmitted), the 1500 ms bootloader-erase pause occurs TWICE in the
operation — once after the first main-set block and once after the
first loader-set block — because the source's `sentCount` is local to
each `sendBlocks` call.  The claim asserts it occurs exactly once. -/
theorem long_pause_twice_with_loader_set :
    count1500 (flashFirmware [⟨0, [0]⟩] [⟨0x20200000, [1]⟩] (fun _ => true)).1 = 2 := by
  rfl

theorem count1500_append (a b : List Ev) :
    count1500 (a ++ b) = count1500 a + count1500 b :=
  List.countP_append _ a b

theorem count1500_blockEvs_pos (bs : List Block) (d t : Nat) :
    ∀ s, count1500 (blockEvs bs d (s + 1) t) = 0 := by
  induction bs with
  | nil => intro s; rfl
  | cons b rest ih =>
    intro s
    have hne : ¬ (s + 1 + 1 = 1) := by omega
    have hrest := ih (s + 1)
    simp only [count1500] at hrest
    simp only [blockEvs, count1500, List.countP_cons, if_neg hne, hrest]
    rfl

theorem count1500_blockEvs (bs : List Block) (d t : Nat) :
    count1500 (blockEvs bs d 0 t) = if bs.isEmpty then 0 else 1 := by
  cases bs with
  | nil => rfl
  | cons b rest =>
    have hrest := count1500_blockEvs_pos rest d t 0
    simp only [count1500] at hrest
    simp only [blockEvs, count1500, List.countP_cons, hrest]
    rfl

theorem neededFilter_isEmpty (bs : List Block) :
    (neededFilter bs).isEmpty = bs.isEmpty := by
  cases bs <;> rfl

/-- C7, amended claim.  In one `flashFirmware` operation with an
always-succeeding transport, the long (1500 ms) bootloader-erase pause
occurs once per nonempty block set — after the first transmitted block
of the main set and again after the first transmitted block of the
loader set — rather than once per operation; blocks transmitted after
the first of their own set are followed by the short pause. -/
theorem long_pause_once_per_block_set (main loader : List Block) :
    count1500 (flashFirmware main loader (fun _ => true)).1 =
      (if main.isEmpty then 0 else 1) + (if loader.isEmpty then 0 else 1) := by
  have hc : ∀ l : List Ev, count1500 (Ev.openDev :: l) = count1500 l := by
    intro l; rfl
  rw [flashFirmware_ok_trace]
  dsimp only
  simp only [List.cons_append, List.append_assoc]
  rw [hc, count1500_append, count1500_append, count1500_blockEvs,
    count1500_blockEvs, neededFilter_isEmpty, neededFilter_isEmpty]
  have h0 : count1500 [Ev.send sentinelReport true, .sleep 100, .closeDev] = 0 := rfl
  rw [h0]
  omega

/-- C4, witness: the four-block scenario instantiated with concrete
blocks (positions 1 and 3 entirely `0xFF`). -/
theorem flashFirmware_needed_blocks_and_progress_witness :
    flashFirmware [⟨0, [1]⟩, ⟨1024, [0xff]⟩, ⟨2048, [2]⟩, ⟨3072, [0xff]⟩] []
        (fun _ => true) =
      ([.openDev, .send (buildReport ⟨0, [1]⟩) true, .progress 1 2, .sleep 1500,
        .send (buildReport ⟨2048, [2]⟩) true, .progress 2 2, .sleep 5,
        .send sentinelReport true, .sleep 100, .closeDev], none)
    ∧ progresses (flashFirmware [⟨0, [1]⟩, ⟨1024, [0xff]⟩, ⟨2048, [2]⟩, ⟨3072, [0xff]⟩]
        [] (fun _ => true)).1 = [(1, 2), (2, 2)]
    ∧ ((1 : ℚ) / 2 < 2 / 2) :=
  flashFirmware_needed_blocks_and_progress.2
    ⟨0, [1]⟩ ⟨1024, [0xff]⟩ ⟨2048, [2]⟩ ⟨3072, [0xff]⟩
    (by decide) (by decide) (by decide)

/-! ## Claim C8: report framing and the sentinel -/

/-- C8.  For block lists whose data buffers are 1024 bytes: the
successful-transport trace consists of the framed needed blocks of both
sets followed by exactly one sentinel send and the 100 ms settle pause
before close; each block's report is 1088 bytes, bytes 0-2 hold the
block's 24-bit address little-endian (their recombination equals the
address modulo `2^24`), header bytes 3-63 are zero, and the 1024-byte
payload sits at offset 64; the sentinel report is 1088 bytes, starts
with `0xFF 0xFF 0xFF`, and is zero elsewhere. -/
theorem flashFirmware_report_framing (main loader : List Block)
    (h : ∀ b ∈ main ++ loader, b.data.length = 1024) :
    (flashFirmware main loader (fun _ => true)).1 =
      .openDev ::
        blockEvs (neededFilter main) 0 0 (countNeeded main + countNeeded loader) ++
        blockEvs (neededFilter loader) (neededFilter main).length 0
          (countNeeded main + countNeeded loader) ++
        [.send sentinelReport true, .sleep 100, .closeDev]
    ∧ (∀ b ∈ main ++ loader,
        (buildReport b).length = 1088
        ∧ (buildReport b).take 3 =
            [b.address % 256, b.address / 256 % 256, b.address / 65536 % 256]
        ∧ b.address % 256 + 256 * (b.address / 256 % 256) +
            65536 * (b.address / 65536 % 256) = b.address % 16777216
        ∧ ((buildReport b).drop 3).take 61 = List.replicate 61 0
        ∧ (buildReport b).drop 64 = b.data)
    ∧ sentinelReport.length = 1088
    ∧ sentinelReport.take 3 = [0xff, 0xff, 0xff]
    ∧ sentinelReport.drop 3 = List.replicate 1085 0 := by
  refine ⟨?_, ?_, rfl, rfl, rfl⟩
  · rw [flashFirmware_ok_trace]
  · intro b hb
    have hlen := h b hb
    refine ⟨?_, rfl, by omega, rfl, ?_⟩
    · simp [buildReport, hlen]
    · show b.data ++ List.replicate (1024 - b.data.length) 0 = b.data
      rw [hlen]
      simp

/-- C8, witness: one main block at address `0x60123456` with a
1024-byte payload. -/
theorem flashFirmware_report_framing_witness :
    (flashFirmware [⟨0x60123456, List.replicate 1024 7⟩] [] (fun _ => true)).1 =
      .openDev ::
        blockEvs (neededFilter [⟨0x60123456, List.replicate 1024 7⟩]) 0 0
          (countNeeded [⟨0x60123456, List.replicate 1024 7⟩] + countNeeded []) ++
        blockEvs (neededFilter [])
          (neededFilter [⟨0x60123456, List.replicate 1024 7⟩]).length 0
          (countNeeded [⟨0x60123456, List.replicate 1024 7⟩] + countNeeded []) ++
        [.send sentinelReport true, .sleep 100, .closeDev]
    ∧ (∀ b ∈ [(⟨0x60123456, List.replicate 1024 7⟩ : Block)] ++ [],
        (buildReport b).length = 1088
        ∧ (buildReport b).take 3 =
            [b.address % 256, b.address / 256 % 256, b.address / 65536 % 256]
        ∧ b.address % 256 + 256 * (b.address / 256 % 256) +
            65536 * (b.address / 65536 % 256) = b.address % 16777216
        ∧ ((buildReport b).drop 3).take 61 = List.replicate 61 0
        ∧ (buildReport b).drop 64 = b.data)
    ∧ sentinelReport.length = 1088
    ∧ sentinelReport.take 3 = [0xff, 0xff, 0xff]
    ∧ sentinelReport.drop 3 = List.replicate 1085 0 :=
  flashFirmware_report_framing [⟨0x60123456, List.replicate 1024 7⟩] []
    (by intro b hb; simp at hb; subst hb; simp)

/-! ## Claim C9: the serial line framer -/

theorem splitNlParts_cons_nl (rest : List Char) :
    splitNlParts ('\n' :: rest) =
      ([] :: (splitNlParts rest).1, (splitNlParts rest).2) := rfl

theorem splitNlParts_cons_ne (c : Char) (rest : List Char) (hc : ¬ c = '\n') :
    splitNlParts (c :: rest) =
      match splitNlParts rest with
      | (l :: ls, t) => ((c :: l) :: ls, t)
      | ([], t) => ([], c :: t) := by
  simp only [splitNlParts, if_neg hc]

theorem splitNlParts_no_newline (cs : List Char) (h : '\n' ∉ cs) :
    splitNlParts cs = ([], cs) := by
  induction cs with
  | nil => rfl
  | cons c rest ih =>
    have hc : ¬ c = '\n' := fun hh => h (hh ▸ List.mem_cons_self c rest)
    have hr : '\n' ∉ rest := fun hh => h (List.mem_cons_of_mem c hh)
    rw [splitNlParts_cons_ne c rest hc, ih hr]

theorem splitNlParts_snd_no_newline (cs : List Char) :
    '\n' ∉ (splitNlParts cs).2 := by
  induction cs with
  | nil => simp [splitNlParts]
  | cons c rest ih =>
    by_cases hc : c = '\n'
    · subst hc
      rw [splitNlParts_cons_nl]
      exact ih
    · rw [splitNlParts_cons_ne c rest hc]
      rcases hp : splitNlParts rest with ⟨l, t⟩
      rw [hp] at ih
      cases l with
      | nil =>
        show '\n' ∉ c :: t
        intro hmem
        rcases List.mem_cons.mp hmem with h1 | h2
        · exact hc h1.symm
        · exact ih h2
      | cons x xs =>
        show '\n' ∉ t
        exact ih

theorem splitNlParts_append (a b : List Char) :
    splitNlParts (a ++ b) =
      ((splitNlParts a).1 ++ (splitNlParts ((splitNlParts a).2 ++ b)).1,
        (splitNlParts ((splitNlParts a).2 ++ b)).2) := by
  induction a with
  | nil => simp [splitNlParts]
  | cons c a' ih =>
    by_cases hc : c = '\n'
    · subst hc
      rw [List.cons_append, splitNlParts_cons_nl, splitNlParts_cons_nl, ih]
      simp
    · rw [List.cons_append, splitNlParts_cons_ne c (a' ++ b) hc,
        splitNlParts_cons_ne c a' hc, ih]
      rcases hp : splitNlParts a' with ⟨l, t⟩
      cases l with
      | nil =>
        show (match ([] ++ (splitNlParts (t ++ b)).1, (splitNlParts (t ++ b)).2) with
          | (l :: ls, tl) => ((c :: l) :: ls, tl)
          | ([], tl) => ([], c :: tl)) =
          ([] ++ (splitNlParts (c :: t ++ b)).1, (splitNlParts (c :: t ++ b)).2)
        rw [List.cons_append, splitNlParts_cons_ne c (t ++ b) hc]
        rcases hq : splitNlParts (t ++ b) with ⟨ql, qt⟩
        cases ql <;> simp
      | cons x xs =>
        show (match ((x :: xs) ++ (splitNlParts (t ++ b)).1, (splitNlParts (t ++ b)).2) with
          | (l :: ls, tl) => ((c :: l) :: ls, tl)
          | ([], tl) => ([], c :: tl)) =
          ((c :: x) :: xs ++ (splitNlParts (t ++ b)).1, (splitNlParts (t ++ b)).2)
        simp

theorem feedAll_characterization (chunks : List (List Char)) :
    ∀ buf : List Char, '\n' ∉ buf →
      feedAll buf chunks =
        (((splitNlParts (buf ++ chunks.flatten)).1).map jsTrim,
          (splitNlParts (buf ++ chunks.flatten)).2) := by
  induction chunks with
  | nil =>
    intro buf hbuf
    simp [feedAll, splitNlParts_no_newline buf hbuf]
  | cons c cs ih =>
    intro buf hbuf
    have hbuf' := splitNlParts_snd_no_newline (buf ++ c)
    have hrec := ih (splitNlParts (buf ++ c)).2 hbuf'
    have hsplit := splitNlParts_append (buf ++ c) cs.flatten
    simp only [feedAll, processSerialData, hrec]
    rw [show buf ++ (c :: cs).flatten = (buf ++ c) ++ cs.flatten by simp [List.flatten]]
    rw [hsplit]
    simp [List.map_append]

/-- C9.  For every sequence of `feed` calls starting from an empty
retained buffer, the cumulative emitted lines are exactly the
newline-terminated segments of the concatenated input, each trimmed of
surrounding whitespace, in arrival order, each exactly once, and the
final unterminated segment is retained as the new buffer; in
particular, feeding `"AB"` then `"C\nDEF\n"` emits exactly `"ABC"` then
`"DEF"` with an empty residual buffer. -/
theorem lineFramer_emits_terminated_segments :
    (∀ chunks : List (List Char),
      feedAll [] chunks =
        (((splitNlParts chunks.flatten).1).map jsTrim, (splitNlParts chunks.flatten).2))
    ∧ feedAll [] ["AB".toList, "C\nDEF\n".toList] =
        (["ABC".toList, "DEF".toList], []) := by
  constructor
  · intro chunks
    have := feedAll_characterization chunks [] (by simp)
    simpa using this
  · rfl

/-! ## Claim C6: the dual-segment splitter

Spec-side characterisation of the canonical end-of-file marker line and
supporting lemmas relating the regular-expression search of the source
to the line structure of the text. -/

/-- A chunk of text that can be one line of a newline-joined text: it
contains no line-terminator character. -/
abbrev lineChars (l : List Char) : Prop := ∀ c ∈ l, isTerm c = false

/-- Spec-side characterisation of a line exactly matching the canonical
end-of-file record with optional trailing whitespace. -/
def canonEofLine (l : List Char) : Bool :=
  eofMarker.isPrefixOf l && (l.drop 11).all isJsWs

theorem canonEofLine_iff (l : List Char) :
    canonEofLine l = true ↔
      ∃ ws, l = eofMarker ++ ws ∧ ∀ c ∈ ws, isJsWs c = true := by
  constructor
  · intro h
    have h' : eofMarker.isPrefixOf l = true ∧ (l.drop 11).all isJsWs = true := by
      simpa [canonEofLine] using h
    rcases List.isPrefixOf_iff_prefix.mp h'.1 with ⟨t, ht⟩
    refine ⟨t, ht.symm, ?_⟩
    intro c hc
    have hdrop : l.drop 11 = t := by rw [← ht]; exact List.drop_left eofMarker t
    exact List.all_eq_true.mp h'.2 c (by rw [hdrop]; exact hc)
  · rintro ⟨ws, rfl, hws⟩
    have h1 : eofMarker.isPrefixOf (eofMarker ++ ws) = true :=
      List.isPrefixOf_iff_prefix.mpr ⟨ws, rfl⟩
    have h2 : ((eofMarker ++ ws).drop 11).all isJsWs = true := by
      have hdrop : (eofMarker ++ ws).drop 11 = ws := List.drop_left eofMarker ws
      rw [hdrop]
      exact List.all_eq_true.mpr hws
    simp [canonEofLine, h1, h2]

theorem joinNl_cons (l : List Char) (ls : List (List Char)) (h : ls ≠ []) :
    joinNl (l :: ls) = l ++ '\n' :: joinNl ls := by
  cases ls with
  | nil => exact absurd rfl h
  | cons x xs => rfl

theorem joinNl_append_cons (pre : List (List Char)) (m : List Char)
    (post : List (List Char)) (h : post ≠ []) :
    joinNl (pre ++ m :: post) = joinNl (pre ++ [m]) ++ '\n' :: joinNl post := by
  induction pre with
  | nil =>
    simp only [List.nil_append]
    rw [joinNl_cons m post h]
    rfl
  | cons p pre' ih =>
    have h1 : pre' ++ m :: post ≠ [] := by simp
    have h2 : pre' ++ [m] ≠ [] := by simp
    rw [List.cons_append, joinNl_cons p _ h1, ih, List.cons_append,
      joinNl_cons p _ h2]
    simp

/-- Text of a list of lines followed by further text, each line closed
by a newline.  `joinNl (pre ++ ms)` with `ms ≠ []` has this shape. -/
def linesThen (pre : List (List Char)) (s : List Char) : List Char :=
  List.foldr (fun l acc => l ++ '\n' :: acc) s pre

theorem joinNl_eq_linesThen (pre ms : List (List Char)) (h : ms ≠ []) :
    joinNl (pre ++ ms) = linesThen pre (joinNl ms) := by
  induction pre with
  | nil => rfl
  | cons p pre' ih =>
    have h1 : pre' ++ ms ≠ [] := by
      cases ms with
      | nil => exact absurd rfl h
      | cons x xs => simp
    rw [List.cons_append, joinNl_cons p _ h1, ih]
    rfl

theorem splitLines_nl_cons (rest : List Char) :
    splitLines ('\n' :: rest) = [] :: splitLines rest := rfl

theorem splitLines_cons_ne (c : Char) (rest : List Char)
    (h1 : ¬ c = '\n') (h2 : ¬ c = '\r') :
    splitLines (c :: rest) =
      match splitLines rest with
      | [] => [[c]]
      | l :: ls => (c :: l) :: ls := by
  rw [splitLines.eq_def]
  split <;> simp_all

theorem isTerm_not_nl_not_cr {c : Char} (h : isTerm c = false) :
    ¬ c = '\n' ∧ ¬ c = '\r' := by
  constructor <;> intro hh <;> rw [hh] at h <;> exact absurd h (by decide)

theorem splitLines_single (l : List Char) (hl : lineChars l) :
    splitLines l = [l] := by
  induction l with
  | nil => rfl
  | cons c cs ih =>
    have hc := isTerm_not_nl_not_cr (hl c (List.mem_cons_self c cs))
    have hcs : lineChars cs := fun x hx => hl x (List.mem_cons_of_mem c hx)
    rw [splitLines_cons_ne c cs hc.1 hc.2, ih hcs]

theorem splitLines_line_append (l s : List Char) (hl : lineChars l) :
    splitLines (l ++ '\n' :: s) = l :: splitLines s := by
  induction l with
  | nil => exact splitLines_nl_cons s
  | cons c cs ih =>
    have hc := isTerm_not_nl_not_cr (hl c (List.mem_cons_self c cs))
    have hcs : lineChars cs := fun x hx => hl x (List.mem_cons_of_mem c hx)
    rw [List.cons_append, splitLines_cons_ne c _ hc.1 hc.2, ih hcs]

theorem splitLines_joinNl (ls : List (List Char)) (hne : ls ≠ [])
    (h : ∀ l ∈ ls, lineChars l) : splitLines (joinNl ls) = ls := by
  induction ls with
  | nil => exact absurd rfl hne
  | cons l ls' ih =>
    have hl : lineChars l := h l (List.mem_cons_self l ls')
    cases ls' with
    | nil => exact splitLines_single l hl
    | cons l2 ls2 =>
      rw [joinNl_cons l _ (by simp), splitLines_line_append l _ hl,
        ih (by simp) (fun x hx => h x (List.mem_cons_of_mem l hx))]

theorem dropWhile_all_append {p : Char → Bool} (a b : List Char)
    (h : ∀ c ∈ a, p c = true) :
    List.dropWhile p (a ++ b) = List.dropWhile p b := by
  induction a with
  | nil => rfl
  | cons c cs ih =>
    rw [List.cons_append, List.dropWhile_cons,
      if_pos (h c (List.mem_cons_self c cs))]
    exact ih (fun x hx => h x (List.mem_cons_of_mem c hx))

theorem jsTrim_of_all_ws (l : List Char) (h : ∀ c ∈ l, isJsWs c = true) :
    jsTrim l = [] := by
  have h1 : List.dropWhile isJsWs l = [] := by
    rw [List.dropWhile_eq_nil_iff]; exact h
  simp [jsTrim, h1]

theorem jsTrim_eq_nil_imp (l : List Char) (h : jsTrim l = []) :
    ∀ c ∈ l, isJsWs c = true := by
  have h1 : List.dropWhile isJsWs (List.dropWhile isJsWs l).reverse = [] := by
    have := congrArg List.reverse h
    simpa [jsTrim] using this
  have h2 : ∀ c ∈ (List.dropWhile isJsWs l).reverse, isJsWs c = true :=
    List.dropWhile_eq_nil_iff.mp h1
  have h3 : ∀ c ∈ List.dropWhile isJsWs l, isJsWs c = true := by
    intro c hc
    exact h2 c (List.mem_reverse.mpr hc)
  intro c hc
  rw [← List.takeWhile_append_dropWhile (p := isJsWs) (l := l)] at hc
  rcases List.mem_append.mp hc with h4 | h4
  · exact List.mem_takeWhile_imp h4
  · exact h3 c h4

theorem jsTrim_canon (m : List Char) (hm : canonEofLine m = true) :
    jsTrim m = eofMarker := by
  rcases (canonEofLine_iff m).mp hm with ⟨ws, rfl, hws⟩
  have h1 : List.dropWhile isJsWs (eofMarker ++ ws) = eofMarker ++ ws := by
    rw [show eofMarker ++ ws = ':' :: (eofMarker.drop 1 ++ ws) from rfl,
      List.dropWhile_cons]
    simp [isJsWs]
  have h2 : List.dropWhile isJsWs (ws.reverse ++ eofMarker.reverse) =
      eofMarker.reverse := by
    rw [dropWhile_all_append ws.reverse eofMarker.reverse
      (fun c hc => hws c (List.mem_reverse.mp hc))]
    rfl
  simp [jsTrim, h1, List.reverse_append, h2]

/-- Decompose a character list that is not entirely whitespace into its
whitespace prefix, first non-whitespace character, and remainder. -/
theorem exists_first_nonws (s : List Char) (h : ¬ ∀ c ∈ s, isJsWs c = true) :
    ∃ pre c rest, s = pre ++ c :: rest ∧ (∀ x ∈ pre, isJsWs x = true) ∧
      isJsWs c = false := by
  induction s with
  | nil => exact absurd (by intro c hc; exact absurd hc (List.not_mem_nil c)) h
  | cons a s' ih =>
    by_cases ha : isJsWs a = true
    · have h' : ¬ ∀ c ∈ s', isJsWs c = true := by
        intro hall
        exact h (by
          intro c hc
          rcases List.mem_cons.mp hc with rfl | hmem
          · exact ha
          · exact hall c hmem)
      rcases ih h' with ⟨pre, c, rest, rfl, hpre, hc⟩
      exact ⟨a :: pre, c, rest, rfl, by
        intro x hx
        rcases List.mem_cons.mp hx with rfl | hmem
        · exact ha
        · exact hpre x hmem, hc⟩
    · exact ⟨[], a, s', rfl, by intro x hx; exact absurd hx (List.not_mem_nil x),
        Bool.not_eq_true _ ▸ (by simpa using ha)⟩

/-! wsScan and matchCanonEnd lemmas -/

theorem wsScan_all_ws (ws : List Char) (h : ∀ c ∈ ws, isJsWs c = true) :
    ∀ pos best, wsScan ws pos best = some (pos + ws.length) := by
  induction ws with
  | nil => intro pos best; simp [wsScan]
  | cons c cs ih =>
    intro pos best
    rw [wsScan, if_pos (h c (List.mem_cons_self c cs)),
      ih (fun x hx => h x (List.mem_cons_of_mem c hx))]
    simp
    omega

theorem wsScan_skip_ws (ws : List Char)
    (h : ∀ c ∈ ws, isJsWs c = true ∧ isTerm c = false) :
    ∀ r pos best, wsScan (ws ++ r) pos best = wsScan r (pos + ws.length) best := by
  induction ws with
  | nil => intro r pos best; simp
  | cons c cs ih =>
    intro r pos best
    have hc := h c (List.mem_cons_self c cs)
    rw [List.cons_append, wsScan, if_pos hc.1, hc.2]
    rw [ih (fun x hx => h x (List.mem_cons_of_mem c hx))]
    simp only [List.length_cons]
    congr 1
    omega

theorem wsScan_stop (c : Char) (r : List Char) (hc : isJsWs c = false) :
    ∀ pos best, wsScan (c :: r) pos best = best := by
  intro pos best
  rw [wsScan, if_neg (by simp [hc])]

theorem prefix_through_line (xs l r : List Char) (hnl : '\n' ∉ xs)
    (h : xs <+: l ++ '\n' :: r) : xs <+: l := by
  rcases List.prefix_or_prefix_of_prefix h (List.prefix_append l ('\n' :: r)) with
    h1 | h1
  · exact h1
  · rcases h1 with ⟨u, hu⟩
    cases u with
    | nil => simpa using ⟨[], by simpa using hu.symm⟩
    | cons a u' =>
      exfalso
      rcases h with ⟨t, ht⟩
      rw [← hu] at ht
      have : u' ++ t = r ∧ a = '\n' := by
        have h2 : l ++ a :: (u' ++ t) = l ++ '\n' :: r := by
          simpa using ht
        have h3 : a :: (u' ++ t) = '\n' :: r := List.append_cancel_left h2
        exact ⟨by injection h3, by injection h3⟩
      apply hnl
      rw [← hu]
      exact List.mem_append_right l (by simp [this.2])

theorem canon_decomp (m : List Char) (hm : canonEofLine m = true)
    (hline : lineChars m) :
    ∃ mws, m = eofMarker ++ mws ∧ (∀ c ∈ mws, isJsWs c = true ∧ isTerm c = false) ∧
      m.length = 11 + mws.length := by
  rcases (canonEofLine_iff m).mp hm with ⟨ws, rfl, hws⟩
  refine ⟨ws, rfl, ?_, by rw [List.length_append]; rfl⟩
  intro c hc
  exact ⟨hws c hc, hline c (List.mem_append_right eofMarker hc)⟩

theorem matchCanonEnd_prefix_drop (m X : List Char) (mws : List Char)
    (hdec : m = eofMarker ++ mws) :
    matchCanonEnd (m ++ X) = wsScan (mws ++ X) 11 none := by
  subst hdec
  have hpre : eofMarker.isPrefixOf (eofMarker ++ mws ++ X) = true :=
    List.isPrefixOf_iff_prefix.mpr ⟨mws ++ X, by simp⟩
  rw [matchCanonEnd, if_pos hpre]
  have hdrop : (eofMarker ++ mws ++ X).drop 11 = mws ++ X := by
    rw [List.append_assoc]
    exact List.drop_left eofMarker (mws ++ X)
  rw [hdrop]

theorem matchCanonEnd_sep_nonws (m hws r : List Char) (c : Char)
    (hm : canonEofLine m = true) (hline : lineChars m)
    (hh : ∀ x ∈ hws, isJsWs x = true ∧ isTerm x = false)
    (hc : isJsWs c = false) :
    matchCanonEnd (m ++ '\n' :: (hws ++ c :: r)) = some m.length := by
  rcases canon_decomp m hm hline with ⟨mws, hdec, hmws, hlen⟩
  rw [matchCanonEnd_prefix_drop m _ mws hdec]
  rw [show mws ++ '\n' :: (hws ++ c :: r) = mws ++ ('\n' :: (hws ++ c :: r)) from rfl,
    wsScan_skip_ws mws hmws]
  rw [wsScan, if_pos (by decide), show isTerm '\n' = true from by decide]
  rw [wsScan_skip_ws hws hh, wsScan_stop c r hc, if_pos rfl, hlen]

theorem matchCanonEnd_at_end (m : List Char)
    (hm : canonEofLine m = true) (hline : lineChars m) :
    matchCanonEnd m = some m.length := by
  rcases canon_decomp m hm hline with ⟨mws, hdec, hmws, hlen⟩
  have : matchCanonEnd (m ++ []) = wsScan (mws ++ []) 11 none :=
    matchCanonEnd_prefix_drop m [] mws hdec
  simp only [List.append_nil] at this
  rw [this, wsScan_all_ws mws (fun x hx => (hmws x hx).1), hlen]

theorem matchCanonEnd_allws_tail (m T : List Char)
    (hm : canonEofLine m = true) (hline : lineChars m)
    (hT : ∀ x ∈ T, isJsWs x = true) :
    matchCanonEnd (m ++ '\n' :: T) = some (m.length + 1 + T.length) := by
  rcases canon_decomp m hm hline with ⟨mws, hdec, hmws, hlen⟩
  rw [matchCanonEnd_prefix_drop m _ mws hdec]
  have hall : ∀ x ∈ mws ++ '\n' :: T, isJsWs x = true := by
    intro x hx
    rcases List.mem_append.mp hx with h1 | h1
    · exact (hmws x h1).1
    · rcases List.mem_cons.mp h1 with rfl | h2
      · decide
      · exact hT x h2
  rw [wsScan_all_ws _ hall]
  simp only [List.length_append, List.length_cons]
  rw [hlen]
  congr 1
  omega

theorem matchCanonEnd_not_canon (l r : List Char) (hline : lineChars l)
    (hcanon : canonEofLine l = false)
    (hr : r = [] ∨ ∃ r', r = '\n' :: r') :
    matchCanonEnd (l ++ r) = none := by
  by_cases hpre : eofMarker.isPrefixOf (l ++ r) = true
  · have hprel : eofMarker <+: l := by
      rcases hr with rfl | ⟨r', rfl⟩
      · simpa using List.isPrefixOf_iff_prefix.mp hpre
      · exact prefix_through_line eofMarker l r' (by decide)
          (List.isPrefixOf_iff_prefix.mp hpre)
    rcases hprel with ⟨s, hs⟩
    have hdec : l = eofMarker ++ s := hs.symm
    have hnotall : ¬ ∀ c ∈ s, isJsWs c = true := by
      intro hall
      rw [(canonEofLine_iff l).mpr ⟨s, hdec, hall⟩] at hcanon
      exact absurd hcanon (by simp)
    rcases exists_first_nonws s hnotall with ⟨sws, c, s', hsdec, hsws, hc⟩
    rw [matchCanonEnd_prefix_drop l r s hdec, hsdec]
    have hswsT : ∀ x ∈ sws, isJsWs x = true ∧ isTerm x = false := by
      intro x hx
      refine ⟨hsws x hx, hline x ?_⟩
      rw [hdec, hsdec]
      exact List.mem_append_right _ (List.mem_append_left _ hx)
    rw [show (sws ++ c :: s') ++ r = sws ++ (c :: (s' ++ r)) from by simp,
      wsScan_skip_ws sws hswsT, wsScan_stop c (s' ++ r) hc]
  · rw [matchCanonEnd, if_neg hpre]

/-! findMarkerGo lemmas -/

theorem findMarkerGo_nil (b : Bool) (pos : Nat) : findMarkerGo b [] pos = none := by
  cases b <;> rfl

theorem findMarkerGo_false_cons (c : Char) (rest : List Char) (pos : Nat) :
    findMarkerGo false (c :: rest) pos = findMarkerGo (isTerm c) rest (pos + 1) := rfl

theorem findMarkerGo_true_cons (c : Char) (rest : List Char) (pos : Nat) :
    findMarkerGo true (c :: rest) pos =
      match matchCanonEnd (c :: rest) with
      | some r => some (pos + r)
      | none => findMarkerGo (isTerm c) rest (pos + 1) := rfl

theorem findMarkerGo_skip_mid_nl (xs : List Char)
    (h : ∀ c ∈ xs, isTerm c = false) :
    ∀ r pos, findMarkerGo false (xs ++ '\n' :: r) pos =
      findMarkerGo true r (pos + xs.length + 1) := by
  induction xs with
  | nil =>
    intro r pos
    rw [List.nil_append, findMarkerGo_false_cons,
      show isTerm '\n' = true from by decide]
    simp
  | cons c cs ih =>
    intro r pos
    rw [List.cons_append, findMarkerGo_false_cons,
      h c (List.mem_cons_self c cs),
      ih (fun x hx => h x (List.mem_cons_of_mem c hx)) r (pos + 1)]
    congr 1
    simp
    omega

theorem findMarkerGo_false_none (xs : List Char)
    (h : ∀ c ∈ xs, isTerm c = false) :
    ∀ pos, findMarkerGo false xs pos = none := by
  induction xs with
  | nil => intro pos; rfl
  | cons c cs ih =>
    intro pos
    rw [findMarkerGo_false_cons, h c (List.mem_cons_self c cs),
      ih (fun x hx => h x (List.mem_cons_of_mem c hx)) (pos + 1)]

theorem findMarkerGo_skip_line (l r : List Char) (pos : Nat)
    (hline : lineChars l) (hcanon : canonEofLine l = false) :
    findMarkerGo true (l ++ '\n' :: r) pos =
      findMarkerGo true r (pos + l.length + 1) := by
  cases l with
  | nil =>
    have hmc : matchCanonEnd ('\n' :: r) = none := by
      have := matchCanonEnd_not_canon [] ('\n' :: r)
        (by intro c hc; simp at hc) hcanon (Or.inr ⟨r, rfl⟩)
      simpa using this
    rw [List.nil_append, findMarkerGo_true_cons, hmc,
      show isTerm '\n' = true from by decide]
    simp
  | cons c cs =>
    have hmc : matchCanonEnd (c :: (cs ++ '\n' :: r)) = none := by
      have := matchCanonEnd_not_canon (c :: cs) ('\n' :: r) hline hcanon
        (Or.inr ⟨r, rfl⟩)
      simpa using this
    rw [List.cons_append, findMarkerGo_true_cons, hmc,
      hline c (List.mem_cons_self c cs)]
    rw [findMarkerGo_skip_mid_nl cs
      (fun x hx => hline x (List.mem_cons_of_mem c hx)) r (pos + 1)]
    have harith : pos + 1 + cs.length + 1 = pos + (c :: cs).length + 1 := by
      simp only [List.length_cons]; omega
    rw [harith]

theorem findMarkerGo_last_line (l : List Char) (pos : Nat)
    (hline : lineChars l) (hcanon : canonEofLine l = false) :
    findMarkerGo true l pos = none := by
  cases l with
  | nil => rfl
  | cons c cs =>
    have hmc : matchCanonEnd (c :: cs) = none := by
      have := matchCanonEnd_not_canon (c :: cs) [] hline hcanon (Or.inl rfl)
      simpa using this
    rw [findMarkerGo_true_cons, hmc, hline c (List.mem_cons_self c cs)]
    exact findMarkerGo_false_none cs
      (fun x hx => hline x (List.mem_cons_of_mem c hx)) (pos + 1)

theorem findMarkerGo_match (c : Char) (rest : List Char) (pos r : Nat)
    (h : matchCanonEnd (c :: rest) = some r) :
    findMarkerGo true (c :: rest) pos = some (pos + r) := by
  rw [findMarkerGo_true_cons, h]

/-- Total text length contributed by a list of newline-closed lines. -/
def lengthLines (pre : List (List Char)) : Nat :=
  (pre.map (fun l => l.length + 1)).sum

theorem linesThen_cons (l : List Char) (pre : List (List Char)) (S : List Char) :
    linesThen (l :: pre) S = l ++ '\n' :: linesThen pre S := rfl

theorem length_linesThen (pre : List (List Char)) (S : List Char) :
    (linesThen pre S).length = lengthLines pre + S.length := by
  induction pre with
  | nil => simp [linesThen, lengthLines]
  | cons l pre' ih =>
    rw [linesThen_cons]
    simp only [List.length_append, List.length_cons, ih, lengthLines,
      List.map_cons, List.sum_cons]
    omega

theorem findMarkerGo_skip_lines (pre : List (List Char)) (S : List Char)
    (h : ∀ l ∈ pre, lineChars l ∧ canonEofLine l = false) :
    ∀ pos, findMarkerGo true (linesThen pre S) pos =
      findMarkerGo true S (pos + lengthLines pre) := by
  induction pre with
  | nil => intro pos; simp [linesThen, lengthLines]
  | cons l pre' ih =>
    intro pos
    have hl := h l (List.mem_cons_self l pre')
    rw [linesThen_cons, findMarkerGo_skip_line l _ pos hl.1 hl.2,
      ih (fun x hx => h x (List.mem_cons_of_mem l hx)) (pos + l.length + 1)]
    congr 1
    simp only [lengthLines, List.map_cons, List.sum_cons]
    omega

theorem canon_ne_nil (m : List Char) (hm : canonEofLine m = true) : m ≠ [] := by
  intro h
  rw [h] at hm
  exact absurd hm (by decide)

theorem joinNl_head_shape (h : List Char) (t : List (List Char)) :
    ∃ R, joinNl (h :: t) = h ++ R := by
  cases t with
  | nil => exact ⟨[], by simp [joinNl]⟩
  | cons x xs => exact ⟨'\n' :: joinNl (x :: xs), joinNl_cons h (x :: xs) (by simp)⟩

theorem joinNl_all_ws (post : List (List Char))
    (h : ∀ l ∈ post, ∀ c ∈ l, isJsWs c = true) :
    ∀ c ∈ joinNl post, isJsWs c = true := by
  induction post with
  | nil => intro c hc; exact absurd hc (List.not_mem_nil c)
  | cons l t ih =>
    intro c hc
    cases t with
    | nil =>
      exact h l (List.mem_cons_self l []) c (by simpa [joinNl] using hc)
    | cons x xs =>
      rw [joinNl_cons l (x :: xs) (by simp)] at hc
      rcases List.mem_append.mp hc with h1 | h1
      · exact h l (List.mem_cons_self l _) c h1
      · rcases List.mem_cons.mp h1 with rfl | h2
        · decide
        · exact ih (fun y hy => h y (List.mem_cons_of_mem l hy)) c h2

theorem findMarkerGo_canon_match (m X : List Char) (pos r : Nat)
    (hm : canonEofLine m = true)
    (h : matchCanonEnd (m ++ X) = some r) :
    findMarkerGo true (m ++ X) pos = some (pos + r) := by
  cases hmm : m with
  | nil => exact absurd (hmm ▸ hm) (by decide)
  | cons mh mt =>
    rw [hmm] at h
    rw [List.cons_append] at h ⊢
    exact findMarkerGo_match mh (mt ++ X) pos r h

theorem findMarker_split_nonblank (pre : List (List Char)) (m hline0 : List Char)
    (t : List (List Char))
    (hpre : ∀ l ∈ pre, lineChars l ∧ canonEofLine l = false)
    (hm : canonEofLine m = true) (hml : lineChars m)
    (hh : lineChars hline0) (hhb : jsTrim hline0 ≠ []) :
    findMarker (joinNl (pre ++ m :: hline0 :: t)) =
      some (lengthLines pre + m.length) := by
  rw [findMarker, joinNl_eq_linesThen pre (m :: hline0 :: t) (by simp),
    findMarkerGo_skip_lines pre _ hpre 0]
  rw [joinNl_cons m (hline0 :: t) (by simp)]
  rcases joinNl_head_shape hline0 t with ⟨R, hR⟩
  rw [hR]
  have hnotall : ¬ ∀ c ∈ hline0, isJsWs c = true := by
    intro hall
    exact hhb (jsTrim_of_all_ws hline0 hall)
  rcases exists_first_nonws hline0 hnotall with ⟨hws, c, h', rfl, hhw, hcnw⟩
  have hmc : matchCanonEnd (m ++ '\n' :: ((hws ++ c :: h') ++ R)) = some m.length := by
    rw [show (hws ++ c :: h') ++ R = hws ++ c :: (h' ++ R) from by simp]
    exact matchCanonEnd_sep_nonws m hws (h' ++ R) c hm hml
      (fun x hx => ⟨hhw x hx, hh x (List.mem_append_left _ hx)⟩) hcnw
  rw [findMarkerGo_canon_match m _ (0 + lengthLines pre) m.length hm hmc]
  simp [Nat.add_comm]

theorem findMarker_split_end (pre : List (List Char)) (m : List Char)
    (hpre : ∀ l ∈ pre, lineChars l ∧ canonEofLine l = false)
    (hm : canonEofLine m = true) (hml : lineChars m) :
    findMarker (joinNl (pre ++ [m])) = some (lengthLines pre + m.length) := by
  rw [findMarker, joinNl_eq_linesThen pre [m] (by simp),
    findMarkerGo_skip_lines pre _ hpre 0]
  have hjm : joinNl [m] = m := rfl
  rw [hjm]
  have hmc : matchCanonEnd (m ++ []) = some m.length := by
    rw [List.append_nil]
    exact matchCanonEnd_at_end m hm hml
  have := findMarkerGo_canon_match m [] (0 + lengthLines pre) m.length hm hmc
  rw [List.append_nil] at this
  rw [this]
  simp [Nat.add_comm]

theorem findMarker_split_allws (pre : List (List Char)) (m : List Char)
    (post : List (List Char)) (hne : post ≠ [])
    (hpre : ∀ l ∈ pre, lineChars l ∧ canonEofLine l = false)
    (hm : canonEofLine m = true) (hml : lineChars m)
    (hws : ∀ l ∈ post, ∀ c ∈ l, isJsWs c = true) :
    findMarker (joinNl (pre ++ m :: post)) =
      some (lengthLines pre + (m.length + 1 + (joinNl post).length)) := by
  rw [findMarker, joinNl_eq_linesThen pre (m :: post) (by simp),
    findMarkerGo_skip_lines pre _ hpre 0]
  rw [joinNl_cons m post hne]
  have hmc : matchCanonEnd (m ++ '\n' :: joinNl post) =
      some (m.length + 1 + (joinNl post).length) :=
    matchCanonEnd_allws_tail m (joinNl post) hm hml (joinNl_all_ws post hws)
  rw [findMarkerGo_canon_match m _ (0 + lengthLines pre) _ hm hmc]
  simp [Nat.add_comm]

theorem findMarker_none_of_no_canon (ls : List (List Char)) (hne : ls ≠ [])
    (h : ∀ l ∈ ls, lineChars l ∧ canonEofLine l = false) :
    findMarker (joinNl ls) = none := by
  rw [findMarker]
  suffices hgen : ∀ pos, findMarkerGo true (joinNl ls) pos = none from hgen 0
  induction ls with
  | nil => exact absurd rfl hne
  | cons l t ih =>
    intro pos
    have hl := h l (List.mem_cons_self l t)
    cases t with
    | nil =>
      have hjl : joinNl [l] = l := rfl
      rw [hjl]
      exact findMarkerGo_last_line l pos hl.1 hl.2
    | cons x xs =>
      rw [joinNl_cons l (x :: xs) (by simp),
        findMarkerGo_skip_line l _ pos hl.1 hl.2]
      exact ih (by simp) (fun y hy => h y (List.mem_cons_of_mem l hy))
        (pos + l.length + 1)

/-! Session-decoder lemmas for the splitter claim -/

theorem runLines_cons (bs off : Nat) (l : List Char) (rest : List (List Char))
    (n : Nat) (bm : BlockMap) (base : Nat) :
    runLines bs off (l :: rest) n bm base =
      match stepLine bs off n bm base l with
      | .errS e => .err e
      | .eofS bm' => .done bm'
      | .contS bm' base' => runLines bs off rest (n + 1) bm' base' := rfl

theorem runLines_append (bs off : Nat) (l2 : List (List Char)) :
    ∀ (l1 : List (List Char)) (n : Nat) (bm : BlockMap) (base : Nat),
      runLines bs off (l1 ++ l2) n bm base =
        match runLines bs off l1 n bm base with
        | .err e => .err e
        | .done bm' => .done bm'
        | .ran bm' b' => runLines bs off l2 (n + l1.length) bm' b' := by
  intro l1
  induction l1 with
  | nil => intro n bm base; simp [runLines]
  | cons l t ih =>
    intro n bm base
    rw [List.cons_append, runLines_cons, runLines_cons]
    cases hstep : stepLine bs off n bm base l with
    | errS e => rfl
    | eofS bm2 => rfl
    | contS bm2 base2 =>
      show runLines bs off (t ++ l2) (n + 1) bm2 base2 =
        match runLines bs off t (n + 1) bm2 base2 with
        | .err e => SessionOut.err e
        | .done bm' => SessionOut.done bm'
        | .ran bm' b' => runLines bs off l2 (n + (l :: t).length) bm' b'
      rw [ih (n + 1) bm2 base2]
      have harith : n + 1 + t.length = n + (l :: t).length := by simp; omega
      simp only [harith]

theorem stepLine_canon (bs off n : Nat) (bm : BlockMap) (base : Nat)
    (m : List Char) (hm : canonEofLine m = true) :
    stepLine bs off n bm base m = .eofS bm := by
  have htrim := jsTrim_canon m hm
  simp only [stepLine, htrim]
  rfl

theorem runLines_canon_single (bs off n : Nat) (bm : BlockMap) (base : Nat)
    (m : List Char) (hm : canonEofLine m = true) :
    runLines bs off [m] n bm base = .done bm := by
  rw [runLines_cons, stepLine_canon bs off n bm base m hm]

theorem runLines_no_ran (bs off : Nat) (pre : List (List Char)) (m : List Char)
    (hm : canonEofLine m = true) (n : Nat) (bm : BlockMap) (base : Nat)
    (bm' : BlockMap) (b' : Nat) :
    runLines bs off (pre ++ [m]) n bm base ≠ .ran bm' b' := by
  rw [runLines_append bs off [m] pre n bm base]
  cases hrun : runLines bs off pre n bm base with
  | err e =>
    show SessionOut.err e ≠ SessionOut.ran bm' b'
    simp
  | done bmx =>
    show SessionOut.done bmx ≠ SessionOut.ran bm' b'
    simp
  | ran bmx bx =>
    show runLines bs off [m] (n + pre.length) bmx bx ≠ SessionOut.ran bm' b'
    rw [runLines_canon_single bs off (n + pre.length) bmx bx m hm]
    simp

theorem stepLine_shift (bs off n n' : Nat) (bm : BlockMap) (base : Nat)
    (l : List Char) :
    (∀ bm', stepLine bs off n bm base l = .eofS bm' →
      stepLine bs off n' bm base l = .eofS bm')
    ∧ (∀ bm' b', stepLine bs off n bm base l = .contS bm' b' →
      stepLine bs off n' bm base l = .contS bm' b') := by
  by_cases ht : (jsTrim l).isEmpty
  · constructor
    · intro bm' h
      rw [stepLine] at h ⊢
      simp only [ht, if_true] at h ⊢
      exact absurd h (by simp)
    · intro bm' b' h
      rw [stepLine] at h ⊢
      simp only [ht, if_true] at h ⊢
      exact h
  · constructor
    · intro bm' h
      rw [stepLine] at h ⊢
      simp only [ht] at h ⊢
      rw [if_neg (show ¬ (false = true) from by simp)] at h ⊢
      split at h
      · exact absurd h (by simp)
      · exact h
    · intro bm' b' h
      rw [stepLine] at h ⊢
      simp only [ht] at h ⊢
      rw [if_neg (show ¬ (false = true) from by simp)] at h ⊢
      split at h
      · exact absurd h (by simp)
      · exact h

theorem runLines_shift (bs off : Nat) (ls : List (List Char)) :
    ∀ (n n' : Nat) (bm : BlockMap) (base : Nat),
      (∀ bm', runLines bs off ls n bm base = .done bm' →
        runLines bs off ls n' bm base = .done bm')
      ∧ (∀ bm' b', runLines bs off ls n bm base = .ran bm' b' →
        runLines bs off ls n' bm base = .ran bm' b') := by
  induction ls with
  | nil =>
    intro n n' bm base
    constructor
    · intro bm' h; exact absurd h (by simp [runLines])
    · intro bm' b' h; simpa [runLines] using h
  | cons l t ih =>
    intro n n' bm base
    constructor
    · intro bm' h
      rw [runLines_cons] at h ⊢
      cases hstep : stepLine bs off n bm base l with
      | errS e => rw [hstep] at h; simp at h
      | eofS bm2 =>
        rw [hstep] at h
        rw [(stepLine_shift bs off n n' bm base l).1 bm2 hstep]
        exact h
      | contS bm2 base2 =>
        rw [hstep] at h
        rw [(stepLine_shift bs off n n' bm base l).2 bm2 base2 hstep]
        exact (ih (n + 1) (n' + 1) bm2 base2).1 bm' h
    · intro bm' b' h
      rw [runLines_cons] at h ⊢
      cases hstep : stepLine bs off n bm base l with
      | errS e => rw [hstep] at h; simp at h
      | eofS bm2 => rw [hstep] at h; simp at h
      | contS bm2 base2 =>
        rw [hstep] at h
        rw [(stepLine_shift bs off n n' bm base l).2 bm2 base2 hstep]
        exact (ih (n + 1) (n' + 1) bm2 base2).2 bm' b' h

theorem runLines_skip_blank_head (bs off n : Nat) (bm : BlockMap) (base : Nat)
    (ls : List (List Char)) :
    runLines bs off ([] :: ls) n bm base = runLines bs off ls (n + 1) bm base := rfl

/-- Parsing a text whose lines extend beyond a canonical end-of-file
line gives the same result as parsing only up to and including that
line: the decoder stops at the EOF record (or at an earlier error). -/
theorem parse_stops_at_canon (pre post : List (List Char)) (m : List Char)
    (bs off : Nat)
    (hpre : ∀ l ∈ pre, lineChars l) (hml : lineChars m)
    (hpost : ∀ l ∈ post, lineChars l)
    (hm : canonEofLine m = true) :
    parseSingleHexSession (joinNl (pre ++ m :: post)) bs off =
      parseSingleHexSession (joinNl (pre ++ [m])) bs off := by
  have hlines1 : ∀ l ∈ pre ++ m :: post, lineChars l := by
    intro l hl
    rcases List.mem_append.mp hl with h1 | h1
    · exact hpre l h1
    · rcases List.mem_cons.mp h1 with rfl | h2
      · exact hml
      · exact hpost l h2
  have hlines2 : ∀ l ∈ pre ++ [m], lineChars l := by
    intro l hl
    rcases List.mem_append.mp hl with h1 | h1
    · exact hpre l h1
    · rcases List.mem_cons.mp h1 with rfl | h2
      · exact hml
      · exact absurd h2 (List.not_mem_nil l)
  rw [parseSingleHexSession, parseSingleHexSession,
    splitLines_joinNl (pre ++ m :: post) (by simp) hlines1,
    splitLines_joinNl (pre ++ [m]) (by simp) hlines2]
  rw [show pre ++ m :: post = (pre ++ [m]) ++ post from by simp,
    runLines_append bs off post (pre ++ [m]) 0 [] 0]
  cases hrun : runLines bs off (pre ++ [m]) 0 [] 0 with
  | err e => rfl
  | done bmx => rfl
  | ran bmx bx => exact absurd hrun (runLines_no_ran bs off pre m hm 0 [] 0 bmx bx)

theorem parseEhexFull_of_findMarker_some (text : List Char) (e : Nat)
    (h : findMarker text = some e) :
    parseEhexFull text 1024 =
      match parseSingleHexSession (text.take e) 1024 0x60000000 with
      | .error err => .error err
      | .ok mainBlocks =>
        if (jsTrim (text.drop e)).isEmpty then .ok (mainBlocks, [])
        else (parseSingleHexSession (text.drop e) 1024 0).map
          (fun lb => (mainBlocks, lb)) := by
  unfold parseEhexFull
  rw [h]

theorem parseEhexFull_of_findMarker_none (text : List Char)
    (h : findMarker text = none) :
    parseEhexFull text 1024 =
      (parseSingleHexSession text 1024 0x60000000).map (fun mb => (mb, [])) := by
  unfold parseEhexFull
  rw [h]

theorem length_joinNl_pre (pre : List (List Char)) (m : List Char) :
    (joinNl (pre ++ [m])).length = lengthLines pre + m.length := by
  rw [joinNl_eq_linesThen pre [m] (by simp)]
  have hjm : joinNl [m] = m := rfl
  rw [hjm, length_linesThen]

theorem loader_session_after_newline (h : List Char) (t : List (List Char))
    (hlines : ∀ l ∈ h :: t, lineChars l) (lb : List PBlock)
    (hlb : parseSingleHexSession (joinNl (h :: t)) 1024 0 = .ok lb) :
    parseSingleHexSession ('\n' :: joinNl (h :: t)) 1024 0 = .ok lb := by
  rw [parseSingleHexSession] at hlb ⊢
  rw [splitLines_joinNl (h :: t) (by simp) hlines] at hlb
  rw [splitLines_nl_cons, splitLines_joinNl (h :: t) (by simp) hlines,
    runLines_skip_blank_head]
  cases hrun : runLines 1024 0 (h :: t) 0 [] 0 with
  | err e => rw [hrun] at hlb; exact absurd hlb (by simp)
  | done bm =>
    rw [hrun] at hlb
    rw [(runLines_shift 1024 0 (h :: t) 0 1 [] 0).1 bm hrun]
    exact hlb
  | ran bm b =>
    rw [hrun] at hlb
    rw [(runLines_shift 1024 0 (h :: t) 0 1 [] 0).2 bm b hrun]
    exact hlb

/-- C6.  The dual-segment splitter decodes at the first line exactly
matching the canonical end-of-file record with optional trailing
whitespace.  First conjunct: with no such line the entire text is one
primary session at offset `0x60000000` with an empty loader set — never
a rejection beyond what that session's own decode produces.  Second
conjunct: with a canonical marker line `m` and a blank remainder, the
result is the decode of everything up to and including `m` with an
empty loader set.  Third conjunct: with a nonblank remainder, the text
up to and including `m` decodes into `mainBlocks` at offset
`0x60000000` (its errors propagate) and the remainder decodes with zero
offset into `loaderBlocks`.  Lines are assumed free of embedded line
terminators (the shape `splitLines` itself produces on
newline-separated text). -/
theorem parseEhexFull_splits_at_first_canon_eof :
    (∀ ls : List (List Char), ls ≠ [] →
      (∀ l ∈ ls, lineChars l ∧ canonEofLine l = false) →
      parseEhexFull (joinNl ls) 1024 =
        (parseSingleHexSession (joinNl ls) 1024 0x60000000).map (fun mb => (mb, [])))
    ∧ (∀ (pre post : List (List Char)) (m : List Char),
      (∀ l ∈ pre, lineChars l ∧ canonEofLine l = false) →
      lineChars m → canonEofLine m = true →
      (∀ l ∈ post, lineChars l) →
      (∀ l ∈ post, jsTrim l = []) →
      parseEhexFull (joinNl (pre ++ m :: post)) 1024 =
        (parseSingleHexSession (joinNl (pre ++ [m])) 1024 0x60000000).map
          (fun mb => (mb, [])))
    ∧ (∀ (pre : List (List Char)) (hd : List Char) (t : List (List Char))
        (m : List Char),
      (∀ l ∈ pre, lineChars l ∧ canonEofLine l = false) →
      lineChars m → canonEofLine m = true →
      (∀ l ∈ hd :: t, lineChars l) →
      jsTrim hd ≠ [] →
      (∀ e, parseSingleHexSession (joinNl (pre ++ [m])) 1024 0x60000000 = .error e →
        parseEhexFull (joinNl (pre ++ m :: hd :: t)) 1024 = .error e)
      ∧ (∀ mb lb,
          parseSingleHexSession (joinNl (pre ++ [m])) 1024 0x60000000 = .ok mb →
          parseSingleHexSession (joinNl (hd :: t)) 1024 0 = .ok lb →
          parseEhexFull (joinNl (pre ++ m :: hd :: t)) 1024 = .ok (mb, lb))) := by
  refine ⟨?_, ?_, ?_⟩
  · -- no canonical marker line: the whole text is one primary session
    intro ls hne h
    exact parseEhexFull_of_findMarker_none (joinNl ls)
      (findMarker_none_of_no_canon ls hne h)
  · -- blank remainder after the marker
    intro pre post m hpre hml hm hpost hblank
    cases post with
    | nil =>
      have htext : joinNl (pre ++ m :: ([] : List (List Char))) = joinNl (pre ++ [m]) := rfl
      rw [htext]
      rw [parseEhexFull_of_findMarker_some (joinNl (pre ++ [m]))
        (lengthLines pre + m.length) (findMarker_split_end pre m hpre hm hml)]
      have he : lengthLines pre + m.length = (joinNl (pre ++ [m])).length :=
        (length_joinNl_pre pre m).symm
      rw [he, List.take_length, List.drop_length]
      cases hp : parseSingleHexSession (joinNl (pre ++ [m])) 1024 0x60000000 with
      | error e => rfl
      | ok mb => rfl
    | cons p t =>
      have hws : ∀ l ∈ p :: t, ∀ c ∈ l, isJsWs c = true := by
        intro l hl
        exact jsTrim_eq_nil_imp l (hblank l hl)
      rw [parseEhexFull_of_findMarker_some (joinNl (pre ++ m :: p :: t))
        (lengthLines pre + (m.length + 1 + (joinNl (p :: t)).length))
        (findMarker_split_allws pre m (p :: t) (by simp) hpre hm hml hws)]
      have he : lengthLines pre + (m.length + 1 + (joinNl (p :: t)).length) =
          (joinNl (pre ++ m :: p :: t)).length := by
        rw [joinNl_eq_linesThen pre (m :: p :: t) (by simp), length_linesThen,
          joinNl_cons m (p :: t) (by simp)]
        simp only [List.length_append, List.length_cons]
        omega
      rw [he, List.take_length, List.drop_length]
      rw [parse_stops_at_canon pre (p :: t) m 1024 0x60000000
        (fun l hl => (hpre l hl).1) hml hpost hm]
      cases hp : parseSingleHexSession (joinNl (pre ++ [m])) 1024 0x60000000 with
      | error e => rfl
      | ok mb => rfl
  · -- nonblank remainder: primary and loader sessions split at the marker
    intro pre hd t m hpre hml hm hlines hhb
    have htext : joinNl (pre ++ m :: hd :: t) =
        joinNl (pre ++ [m]) ++ '\n' :: joinNl (hd :: t) :=
      joinNl_append_cons pre m (hd :: t) (by simp)
    have hfind : findMarker (joinNl (pre ++ m :: hd :: t)) =
        some (lengthLines pre + m.length) :=
      findMarker_split_nonblank pre m hd t hpre hm hml
        (hlines hd (List.mem_cons_self hd t)) hhb
    have htake : (joinNl (pre ++ m :: hd :: t)).take (lengthLines pre + m.length) =
        joinNl (pre ++ [m]) := by
      rw [htext, ← length_joinNl_pre pre m]
      exact List.take_left (joinNl (pre ++ [m])) ('\n' :: joinNl (hd :: t))
    have hdrop : (joinNl (pre ++ m :: hd :: t)).drop (lengthLines pre + m.length) =
        '\n' :: joinNl (hd :: t) := by
      rw [htext, ← length_joinNl_pre pre m]
      exact List.drop_left (joinNl (pre ++ [m])) ('\n' :: joinNl (hd :: t))
    have hred := parseEhexFull_of_findMarker_some (joinNl (pre ++ m :: hd :: t))
      (lengthLines pre + m.length) hfind
    rw [htake, hdrop] at hred
    constructor
    · intro e he
      rw [hred, he]
    · intro mb lb hmb hlb
      rw [hred, hmb]
      dsimp only
      have hnotall : ¬ ∀ c ∈ hd, isJsWs c = true := by
        intro hall
        exact hhb (jsTrim_of_all_ws hd hall)
      rcases exists_first_nonws hd hnotall with ⟨hws0, c, h', hdec, hhw, hcnw⟩
      have hcmem : c ∈ '\n' :: joinNl (hd :: t) := by
        rcases joinNl_head_shape hd t with ⟨R, hR⟩
        rw [hR, hdec]
        exact List.mem_cons_of_mem '\n'
          (List.mem_append_left R (List.mem_append_right hws0 (List.mem_cons_self c h')))
      have hne : (jsTrim ('\n' :: joinNl (hd :: t))).isEmpty = false := by
        rcases hempty : (jsTrim ('\n' :: joinNl (hd :: t))) with _ | _
        · exfalso
          have := jsTrim_eq_nil_imp ('\n' :: joinNl (hd :: t)) hempty c hcmem
          rw [this] at hcnw
          exact absurd hcnw (by simp)
        · rfl
      rw [if_neg (by simp [hne])]
      rw [loader_session_after_newline hd t hlines lb hlb]
      rfl

/-- C6, witness: the text `":00000001FF\n:00000001FF"` — a canonical
marker line followed by a nonblank loader session — splits into an
empty main block list and an empty loader block list. -/
theorem parseEhexFull_splits_witness :
    parseEhexFull (joinNl ([] ++ ":00000001FF".toList :: ":00000001FF".toList :: []))
      1024 = .ok ([], []) :=
  (parseEhexFull_splits_at_first_canon_eof.2.2 [] (":00000001FF".toList) []
    (":00000001FF".toList)
    (by intro l hl; exact absurd hl (List.not_mem_nil l))
    (by decide) (by decide)
    (by intro l hl; simp at hl; rw [hl]; decide)
    (by decide)).2 [] [] (by rfl) (by rfl)

end TeensyLoader
